import Mathlib

/-!
Verification of the streaming markdown completion engine of `streamdown`
(block segmenter `parseMarkdownIntoBlocks` and incomplete-token completer
`parseIncompleteMarkdown`), as described by the repository specification,
together with the `Block` rendering wrapper from `packages/streamdown/index.tsx`.

The segmenter and completer live in `lib/parse-blocks` and
`lib/parse-incomplete-markdown`, which are not part of the provided sources;
they are therefore modelled from the specification (see the doc comments of
the individual definitions).  The `Block` wrapper and the plugin configuration
are taken directly from `index.tsx`.
-/

/-- Word character class used by the delimiter flanking rules (spec section 4.2):
a character that is part of a word, as opposed to whitespace or punctuation. -/
def isWordChar (c : Char) : Bool := c.isAlphanum

/-- Marker characters that form delimiter runs in the completer's scanner:
backtick and tilde (code fences / code spans / strikethrough), asterisk and
underscore (emphasis), dollar (math). -/
def isRunChar (c : Char) : Bool :=
  c = '`' || c = '~' || c = '*' || c = '_' || c = '$'

/-- Modelled from the spec: scanner state of the Incomplete Token Completer
(spec section 4.2, "single left-to-right pass maintaining one delimiter stack
per marker family plus independent scanners for code spans, links, math, and
fences"; the source file `lib/parse-incomplete-markdown` is not under the
provided sources).  `fence` is an unterminated fenced-code opener (character
and run length), `math` the parity state of `$$` block math, `code` an open
inline code span (opening run length, and whether a non-backtick character has
followed the opener), `brDepth`/`afterBr`/`parDepth` the bracket-then-paren
nesting tracker for links, `stack` the delimiter stack of open
emphasis/strikethrough runs (innermost first).  `run`, `runAtLS`, `runPrev`
hold the pending maximal marker run being lexed, with its line-start flag and
preceding character; `atLS`/`prev` track the current position. -/
structure ScanState where
  fence : Option (Char × Nat) := none
  math : Bool := false
  code : Option (Nat × Bool) := none
  brDepth : Nat := 0
  afterBr : Bool := false
  parDepth : Nat := 0
  stack : List (Char × Nat) := []
  run : Option (Char × Nat) := none
  runAtLS : Bool := false
  runPrev : Option Char := none
  atLS : Bool := true
  prev : Option Char := none
deriving Repr, DecidableEq

/-- Modelled from the spec: the initial scanner state at the start of a block. -/
def initScan : ScanState := {}

/-- Modelled from the spec: close a delimiter run of character `c` and length
`n` against the delimiter stack — the topmost entry of the same character is
consumed (fully, or partially when the closing run is shorter); entries of
other characters are kept ("a delimiter-stack pop" that only matches the same
marker family). -/
def closeTop : List (Char × Nat) → Char → Nat → List (Char × Nat)
  | [], _, _ => []
  | (c', m) :: rest, c, n =>
    if c' = c then
      if n < m then (c', m - n) :: rest else rest
    else
      (c', m) :: closeTop rest c n

/-- Whether the delimiter stack holds an open entry for marker character `c`. -/
def hasEntry (st : List (Char × Nat)) (c : Char) : Bool :=
  st.any (fun e => e.1 = c)

/-- Modelled from the spec: flanking rule for an emphasis opener ("opener must
be left-flanking (not followed by whitespace) and preceded by
start/space/punctuation", spec section 4.2); the run can open only when the
preceding character is absent or a non-word character and a word character
immediately follows. -/
def openerOK (rprev next : Option Char) : Bool :=
  (match rprev with
   | none => true
   | some p => !(isWordChar p)) &&
  (match next with
   | some w => isWordChar w
   | none => false)

/-- Modelled from the spec: "a word-internal underscore run (word character
immediately before and after the run) is permanently excluded from the
marker-candidate set" (spec section 3). -/
def wordInternal (rprev next : Option Char) : Bool :=
  (match rprev with
   | some p => isWordChar p
   | none => false) &&
  (match next with
   | some w => isWordChar w
   | none => false)

/-- Modelled from the spec: resolve an emphasis/strikethrough delimiter run
against the delimiter stack: a run whose marker has an open entry closes it;
otherwise a run satisfying the opener flanking rule is pushed (strikethrough
`~~` requires a double tilde and contributes a double-tilde entry); otherwise
the run is literal text. -/
def emphRun (base : ScanState) (c : Char) (n : Nat)
    (rprev next : Option Char) (tilde : Bool) : ScanState :=
  if hasEntry base.stack c then
    { base with stack := closeTop base.stack c n }
  else if openerOK rprev next && (!tilde || decide (2 ≤ n)) then
    { base with stack := (c, if tilde then 2 else n) :: base.stack }
  else
    base

/-- Modelled from the spec: finalize a pending maximal marker run of character
`rc` and length `n`, given the character following the run (`none` at end of
input).  Inside an open fence only a line-start closer run of the same
character and at-least-equal length is recognized; inside an open inline code
span only a closing backtick run of at-least-opener length, any other run
being span content; inside open `$$` math only dollar runs toggling the
parity.  Otherwise a line-start run of three or more backticks/tildes opens a
fence, a backtick run opens an inline code span, tilde runs are strikethrough
candidates, a dollar run of `$$` parity toggles block math (a lone `$` is
literal, never a math opener), and asterisk/underscore runs go through the
emphasis delimiter logic with the word-internal underscore exclusion.
`runBase` is the common part: the pending run is consumed and the position
trackers are updated. -/
def runBase (s : ScanState) (rc : Char) : ScanState :=
  { s with run := none, prev := some rc, atLS := false }

/-- Modelled from the spec: dispatch of `finalizeRun`, see its doc comment. -/
def finalizeRun (s : ScanState) (rc : Char) (n : Nat) (next : Option Char) :
    ScanState :=
  let base := runBase s rc
  match s.fence with
  | some (fc, fl) =>
    if rc = fc ∧ s.runAtLS = true ∧ fl ≤ n then { base with fence := none }
    else base
  | none =>
    match s.code with
    | some (cN, _) =>
      if rc = '`' ∧ cN ≤ n then { base with code := none }
      else if rc = '`' then base
      else { base with code := some (cN, true) }
    | none =>
      if s.math then
        if rc = '$' ∧ (n / 2) % 2 = 1 then { base with math := false }
        else base
      else if rc = '`' then
        if s.runAtLS = true ∧ 3 ≤ n then { base with fence := some ('`', n) }
        else { base with code := some (n, false) }
      else if rc = '~' then
        if s.runAtLS = true ∧ 3 ≤ n ∧ hasEntry s.stack '~' = false then
          { base with fence := some ('~', n) }
        else emphRun base '~' n s.runPrev next true
      else if rc = '$' then
        if (n / 2) % 2 = 1 then { base with math := true } else base
      else if rc = '_' ∧ wordInternal s.runPrev next = true then base
      else emphRun base rc n s.runPrev next false

/-- Modelled from the spec: process one non-run-continuation character.  A
marker character starts a new pending run (recording the line-start flag and
preceding character for the flanking rules).  Any other character is content:
inside a fence or math region it is opaque; inside a code span it marks the
span as having content; otherwise it drives the bracket-then-paren link
tracker (`[` … `]` immediately followed by `(` … `)`). -/
def processChar (s : ScanState) (c : Char) : ScanState :=
  if isRunChar c then
    { s with run := some (c, 1), runAtLS := s.atLS, runPrev := s.prev,
             afterBr := false }
  else
    let s' := { s with atLS := c = '\n', prev := some c }
    if s.fence.isSome then s'
    else
      match s.code with
      | some (cN, _) => { s' with code := some (cN, true) }
      | none =>
        if s.math then s'
        else if 0 < s.parDepth then
          if c = '(' then { s' with parDepth := s.parDepth + 1 }
          else if c = ')' then { s' with parDepth := s.parDepth - 1 }
          else s'
        else if s.afterBr = true ∧ c = '(' then
          { s' with parDepth := 1, afterBr := false }
        else if c = '[' then
          { s' with brDepth := s.brDepth + 1, afterBr := false }
        else if c = ']' then
          if 0 < s.brDepth then
            { s' with brDepth := s.brDepth - 1, afterBr := s.brDepth = 1 }
          else { s' with afterBr := false }
        else { s' with afterBr := false }

/-- Modelled from the spec: one step of the completer's left-to-right scanner:
a repeat of the pending run character extends the run; any other character
finalizes the pending run and is then processed itself. -/
def step (s : ScanState) (c : Char) : ScanState :=
  match s.run with
  | some (rc, n) =>
    if c = rc then { s with run := some (rc, n + 1) }
    else processChar (finalizeRun s rc n (some c)) c
  | none => processChar s c

/-- Modelled from the spec: scan a list of characters from the initial state. -/
def scanChars (l : List Char) : ScanState :=
  l.foldl step initScan

/-- Modelled from the spec: at end of input the pending run (if any) is
finalized with no following character. -/
def finalizeEOI (s : ScanState) : ScanState :=
  match s.run with
  | some (rc, n) => finalizeRun s rc n none
  | none => s

/-- Modelled from the spec: the completer's full scan of one block. -/
def scanBlock (t : String) : ScanState :=
  finalizeEOI (scanChars t.data)

/-- Modelled from the spec: closing runs for the still-open emphasis and
strikethrough entries, innermost first ("append a closing run of the same
marker/length at end of text"). -/
def emphClosers : List (Char × Nat) → List Char
  | [] => []
  | (c, m) :: rest => List.replicate m c ++ emphClosers rest

/-- Modelled from the spec: the characters appended at end of text to resolve
the still-open constructs, in the spec's priority order "code spans >
fences/math blocks > links/autolinks > emphasis/strikethrough".  An inline code
opener with no content yet is left as literal backticks and, taking the
code-span priority ("code/fence content must not be reinterpreted by the later
passes"), suppresses any later closers, since they would land inside the open
span.  An unterminated fence gets a newline and a closing run of the opener's
character and length (followed by a newline when closers for other constructs
follow, so they do not merge into the closing fence line, `fenceClosers`
below); unterminated `$$` math gets a closing `$$`; an unterminated link paren
part gets the missing `)`s (a `[` with no following `(` gets nothing);
dangling emphasis entries get matching closing runs. -/
def fenceClosers : Option (Char × Nat) → Bool → List Char
  | some (fc, fl), stackEmpty =>
    '\n' :: (List.replicate fl fc ++ (if stackEmpty then [] else ['\n']))
  | none, _ => []

/-- Modelled from the spec: see the doc comment of `closersOf`. -/
def closersOf (s : ScanState) : List Char :=
  match s.code with
  | some (_, false) => []
  | some (cN, true) =>
    List.replicate cN '`' ++ List.replicate s.parDepth ')' ++
      emphClosers s.stack
  | none =>
    fenceClosers s.fence s.stack.isEmpty ++
    (if s.math then ['$', '$'] else []) ++
    List.replicate s.parDepth ')' ++
    emphClosers s.stack

/-- Modelled from the spec: `parseIncompleteMarkdown` — the Incomplete Token
Completer (`lib/parse-incomplete-markdown`, not under the provided sources):
a pure function that appends the closers for every construct left dangling at
the end of the block, per the policy table of spec section 4.2.  Autolinks and
the block-HTML container exception are not modelled: both are resolved by
leaving the text untouched, which is how any construct outside the modelled
marker set behaves here. -/
def parseIncompleteMarkdown (t : String) : String :=
  t ++ String.mk (closersOf (scanBlock t))

/-- Modelled from the spec: the completer together with its enable flag (spec
section 4.2, "input — one block's text plus an enable flag; if disabled,
return input unchanged"). -/
def applyCompleter (enabled : Bool) (t : String) : String :=
  if enabled then parseIncompleteMarkdown t else t

/-- Modelled from the spec: state of the Block Segmenter
(`lib/parse-blocks`, not under the provided sources; spec section 4.1).
`finished` are the completed top-level blocks in document order, `cur` the
block currently being accumulated (trailing separators included, so that the
concatenation of all blocks reconstructs the input exactly), `blank` records
that a blank line was seen at nesting depth 0 so the next non-newline
character starts a new block.  `fence`/`math` track the open multi-line
constructs that suppress block boundaries ("block boundaries never bisect a
fenced code block or block math region"); `run`/`runAtLS`/`atLS` are the
line-start marker-run lexer used to recognize fence lines and `$$`
delimiters. -/
structure SegState where
  finished : List (List Char) := []
  cur : List Char := []
  blank : Bool := false
  fence : Option (Char × Nat) := none
  math : Bool := false
  run : Option (Char × Nat) := none
  runAtLS : Bool := false
  atLS : Bool := true
deriving Repr, DecidableEq

/-- Modelled from the spec: the segmenter's initial state. -/
def initSeg : SegState := {}

/-- Modelled from the spec: finalize a pending marker run in the segmenter:
a line-start run of three or more backticks or tildes opens a fence (or
closes the open fence when it matches the opener's character with
at-least-equal length), and `$$` runs toggle the block-math parity; inside a
fence, dollar runs are opaque content. -/
def segFinalize (s : SegState) (rc : Char) (n : Nat) : SegState :=
  let base := { s with run := none }
  match s.fence with
  | some (fc, fl) =>
    if rc = fc ∧ s.runAtLS = true ∧ fl ≤ n then { base with fence := none }
    else base
  | none =>
    if s.math then
      if rc = '$' ∧ (n / 2) % 2 = 1 then { base with math := false } else base
    else if (rc = '`' ∨ rc = '~') ∧ s.runAtLS = true ∧ 3 ≤ n then
      { base with fence := some (rc, n) }
    else if rc = '$' ∧ (n / 2) % 2 = 1 then { base with math := true }
    else base

/-- Modelled from the spec: process one character in the segmenter after any
pending run has been finalized.  A newline at line start is a blank line: at
nesting depth 0 it marks a pending block boundary ("a top-level block
boundary occurs at a blank line ... determined by scanning at nesting depth 0
only").  A non-newline character with a boundary pending promotes the
accumulated block (separators stay with the preceding block) and starts the
next block; fence/math marker characters start a pending run. -/
def segProcess (s : SegState) (c : Char) : SegState :=
  if c = '\n' then
    { s with cur := s.cur ++ [c],
             blank := s.blank || (s.atLS && s.fence.isNone && !s.math),
             atLS := true }
  else
    let fin := if s.blank then s.finished ++ [s.cur] else s.finished
    let cur := if s.blank then ([] : List Char) else s.cur
    if c = '`' || c = '~' || c = '$' then
      { s with finished := fin, cur := cur ++ [c], run := some (c, 1),
               runAtLS := s.atLS, atLS := false, blank := false }
    else
      { s with finished := fin, cur := cur ++ [c], atLS := false,
               blank := false }

/-- Modelled from the spec: one step of the segmenter's scan. -/
def segStep (s : SegState) (c : Char) : SegState :=
  match s.run with
  | some (rc, n) =>
    if c = rc then { s with run := some (rc, n + 1), cur := s.cur ++ [c] }
    else segProcess (segFinalize s rc n) c
  | none => segProcess s c

/-- Modelled from the spec: `parseMarkdownIntoBlocks` — the Block Segmenter
(`lib/parse-blocks`, not under the provided sources): splits the accumulated
text into an ordered sequence of non-empty top-level block strings whose
concatenation, original separators included, is exactly the input; the empty
input yields the empty sequence.  Tables and block-HTML containers are not
modelled as boundary-suppressing constructs (only fences and `$$` block
math), which affects only where boundaries fall, not the reconstruction or
stability contracts. -/
def parseMarkdownIntoBlocks (t : String) : List String :=
  let s := t.data.foldl segStep initSeg
  (s.finished ++ (if s.cur = [] then [] else [s.cur])).map String.mk

/-- The `content.trim()` call of the `Block` component (JS
`String.prototype.trim`): remove leading and trailing whitespace, modelled
over the character list. -/
def trimChars (l : List Char) : List Char :=
  ((l.dropWhile Char.isWhitespace).reverse.dropWhile Char.isWhitespace).reverse

/-- String-level trimming used by the `Block` component. -/
def strTrim (t : String) : String := String.mk (trimChars t.data)

/-- Content preprocessing of the `Block` component
(`packages/streamdown/index.tsx`, lines 84-90): when incomplete-markdown
parsing is enabled the block string is trimmed and run through
`parseIncompleteMarkdown`; otherwise the content is passed through verbatim. -/
def parsedContent (shouldParseIncompleteMarkdown : Bool) (content : String) :
    String :=
  if shouldParseIncompleteMarkdown then
    parseIncompleteMarkdown (strTrim content)
  else content

/-- A character with no role in any modelled markdown construct: not a
marker-run character and not part of the link bracket/paren syntax. -/
def plainChar (c : Char) : Bool :=
  !isRunChar c && c ≠ '[' && c ≠ ']' && c ≠ '(' && c ≠ ')'

/-- Text containing no markdown constructs at all: every character is plain. -/
def NoMarkdownText (t : String) : Prop :=
  ∀ c ∈ t.data, plainChar c = true

/-! ## Basic string helpers -/

theorem strMk_append (a b : List Char) :
    String.mk (a ++ b) = String.mk a ++ String.mk b := rfl

theorem strMk_data (t : String) : String.mk t.data = t := by
  cases t
  rfl

theorem str_append_data (t : String) (l : List Char) :
    (t ++ String.mk l).data = t.data ++ l := rfl

theorem str_append_nil (t : String) : t ++ String.mk [] = t := by
  cases t
  exact congrArg String.mk (List.append_nil _)

theorem strMk_eq_nil_iff (l : List Char) : String.mk l = "" ↔ l = [] := by
  constructor
  · intro h
    exact congrArg String.data h
  · intro h
    rw [h]

theorem listDropLastExt {α : Type} (L : List α) :
    ∃ r, L.dropLast ++ r = L := by
  induction L with
  | nil => exact ⟨[], rfl⟩
  | cons x t ih =>
    cases t with
    | nil => exact ⟨[x], rfl⟩
    | cons y u =>
      obtain ⟨r, hr⟩ := ih
      exact ⟨r, by simpa [List.dropLast] using congrArg (x :: ·) hr⟩

/-! ## Segmenter: reconstruction, non-emptiness, prefix stability -/

/-- The characters consumed so far, as recorded by the segmenter state. -/
def segJoin (s : SegState) : List Char :=
  s.finished.flatten ++ s.cur

theorem segFinalize_proj (s : SegState) (rc : Char) (n : Nat) :
    (segFinalize s rc n).finished = s.finished ∧
    (segFinalize s rc n).cur = s.cur ∧
    (segFinalize s rc n).blank = s.blank := by
  unfold segFinalize
  rcases s.fence with _ | ⟨fc, fl⟩ <;> simp only [] <;> (repeat' split) <;>
    exact ⟨rfl, rfl, rfl⟩

theorem segFinalize_finished (s : SegState) (rc : Char) (n : Nat) :
    (segFinalize s rc n).finished = s.finished :=
  (segFinalize_proj s rc n).1

theorem segFinalize_cur (s : SegState) (rc : Char) (n : Nat) :
    (segFinalize s rc n).cur = s.cur :=
  (segFinalize_proj s rc n).2.1

theorem segFinalize_blank (s : SegState) (rc : Char) (n : Nat) :
    (segFinalize s rc n).blank = s.blank :=
  (segFinalize_proj s rc n).2.2

theorem segProcess_join (s : SegState) (c : Char) :
    segJoin (segProcess s c) = segJoin s ++ [c] := by
  unfold segProcess segJoin
  split
  · simp
  · split <;> split <;> simp

theorem segStep_join (s : SegState) (c : Char) :
    segJoin (segStep s c) = segJoin s ++ [c] := by
  unfold segStep
  cases s.run with
  | none => exact segProcess_join s c
  | some p =>
    obtain ⟨rc, n⟩ := p
    simp only []
    split
    · simp [segJoin]
    · rw [segProcess_join, segJoin, segJoin,
        segFinalize_finished, segFinalize_cur]

theorem segFoldl_join (l : List Char) (s : SegState) :
    segJoin (l.foldl segStep s) = segJoin s ++ l := by
  induction l generalizing s with
  | nil => simp
  | cons c t ih =>
    simp only [List.foldl_cons]
    rw [ih, segStep_join, List.append_assoc]
    rfl

theorem str_data_append (t u : String) : (t ++ u).data = t.data ++ u.data :=
  rfl

/-- Non-emptiness invariant of the segmenter: every finished block is
non-empty, and whenever a boundary is pending the current block is non-empty
(it holds at least the blank line that created the boundary). -/
def SegNE (s : SegState) : Prop :=
  (∀ b ∈ s.finished, b ≠ []) ∧ (s.blank = true → s.cur ≠ [])

theorem segProcess_shape (s : SegState) (c : Char) :
    ((segProcess s c).finished = s.finished ∧
      (segProcess s c).cur = s.cur ++ [c]) ∨
    (s.blank = true ∧ (segProcess s c).finished = s.finished ++ [s.cur] ∧
      (segProcess s c).cur = [c]) := by
  unfold segProcess
  by_cases hnl : c = '\n'
  · left
    simp [hnl]
  · by_cases hbl : s.blank = true
    · right
      refine ⟨hbl, ?_⟩
      simp only [hnl, hbl, if_false, if_true, ite_false, ite_true]
      split <;> simp
    · left
      simp only [hnl, hbl, if_false, ite_false]
      split <;> simp [hbl]

theorem segProcess_cur_ne (s : SegState) (c : Char) :
    (segProcess s c).cur ≠ [] := by
  rcases segProcess_shape s c with ⟨_, h2⟩ | ⟨_, _, h2⟩ <;> simp [h2]

theorem segProcess_ne (s : SegState) (c : Char) (h : SegNE s) :
    SegNE (segProcess s c) := by
  obtain ⟨hf, hb⟩ := h
  constructor
  · intro b hbmem
    rcases segProcess_shape s c with ⟨h1, _⟩ | ⟨hbl, h1, _⟩
    · exact hf b (h1 ▸ hbmem)
    · rw [h1] at hbmem
      rcases List.mem_append.mp hbmem with h' | h'
      · exact hf b h'
      · exact (List.mem_singleton.mp h') ▸ hb hbl
  · intro _
    exact segProcess_cur_ne s c

theorem segStep_ne (s : SegState) (c : Char) (h : SegNE s) :
    SegNE (segStep s c) := by
  unfold segStep
  cases hr : s.run with
  | none => exact segProcess_ne s c h
  | some p =>
    obtain ⟨rc, n⟩ := p
    simp only []
    split
    · exact ⟨h.1, fun _ => by simp⟩
    · apply segProcess_ne
      unfold SegNE
      rw [segFinalize_finished, segFinalize_cur, segFinalize_blank]
      exact h

theorem segFoldl_ne (l : List Char) (s : SegState) (h : SegNE s) :
    SegNE (l.foldl segStep s) := by
  induction l generalizing s with
  | nil => exact h
  | cons c t ih => exact ih (segStep s c) (segStep_ne s c h)

theorem segProcess_fin_ext (s : SegState) (c : Char) :
    ∃ k, (segProcess s c).finished = s.finished ++ k := by
  rcases segProcess_shape s c with ⟨h1, _⟩ | ⟨_, h1, _⟩
  · exact ⟨[], by simp [h1]⟩
  · exact ⟨[s.cur], h1⟩

theorem segStep_fin_ext (s : SegState) (c : Char) :
    ∃ k, (segStep s c).finished = s.finished ++ k := by
  unfold segStep
  cases s.run with
  | none => exact segProcess_fin_ext s c
  | some p =>
    obtain ⟨rc, n⟩ := p
    simp only []
    split
    · exact ⟨[], by simp⟩
    · obtain ⟨k, hk⟩ := segProcess_fin_ext (segFinalize s rc n) c
      exact ⟨k, by rw [hk, segFinalize_finished]⟩

theorem segFoldl_fin_ext (l : List Char) (s : SegState) :
    ∃ k, (l.foldl segStep s).finished = s.finished ++ k := by
  induction l generalizing s with
  | nil => exact ⟨[], by simp⟩
  | cons c t ih =>
    obtain ⟨k1, hk1⟩ := segStep_fin_ext s c
    obtain ⟨k2, hk2⟩ := ih (segStep s c)
    exact ⟨k1 ++ k2, by rw [List.foldl_cons, hk2, hk1, List.append_assoc]⟩

theorem strJoin_map_mk (L : List (List Char)) :
    String.join (L.map String.mk) = String.mk L.flatten := by
  suffices h : ∀ (L : List (List Char)) (a : List Char),
      List.foldl (· ++ ·) (String.mk a) (L.map String.mk) =
        String.mk (a ++ L.flatten) by
    have := h L []
    simpa [String.join] using this
  intro L
  induction L with
  | nil => intro a; simp
  | cons x t ih =>
    intro a
    simp only [List.map_cons, List.foldl_cons, List.flatten_cons]
    rw [← strMk_append, ih, List.append_assoc]

theorem segFoldl_join_init (t : String) :
    segJoin (t.data.foldl segStep initSeg) = t.data := by
  have := segFoldl_join t.data initSeg
  simpa [segJoin, initSeg] using this

theorem parseMarkdownIntoBlocks_eq (t : String) :
    parseMarkdownIntoBlocks t =
      ((t.data.foldl segStep initSeg).finished ++
        (if (t.data.foldl segStep initSeg).cur = [] then []
         else [(t.data.foldl segStep initSeg).cur])).map String.mk := rfl

/-- C2: for every input text, the Block Segmenter returns an ordered sequence
of non-empty block strings whose exact concatenation (original separators
preserved) equals the input, and the empty input yields the empty sequence. -/
theorem segmenter_reconstruction :
    (∀ t : String, String.join (parseMarkdownIntoBlocks t) = t) ∧
    (∀ (t b : String), b ∈ parseMarkdownIntoBlocks t → b ≠ "") ∧
    parseMarkdownIntoBlocks "" = [] := by
  refine ⟨?_, ?_, rfl⟩
  · intro t
    rw [parseMarkdownIntoBlocks_eq, strJoin_map_mk]
    have hj := segFoldl_join_init t
    unfold segJoin at hj
    by_cases hc : (t.data.foldl segStep initSeg).cur = []
    · rw [hc, List.append_nil] at hj
      simp only [hc, if_true, ite_true, List.append_nil, hj, strMk_data]
    · simp only [hc, if_false, ite_false, List.flatten_append,
        List.flatten_cons, List.flatten_nil, List.append_nil, hj, strMk_data]
  · intro t b hb
    rw [parseMarkdownIntoBlocks_eq] at hb
    obtain ⟨l, hl, hlb⟩ := List.mem_map.mp hb
    have hNE : SegNE (t.data.foldl segStep initSeg) :=
      segFoldl_ne t.data initSeg ⟨by simp [initSeg], by simp [initSeg]⟩
    have hlne : l ≠ [] := by
      rcases List.mem_append.mp hl with h' | h'
      · exact hNE.1 l h'
      · by_cases hc : (t.data.foldl segStep initSeg).cur = []
        · rw [hc] at h'
          simp at h'
        · rw [if_neg hc] at h'
          exact (List.mem_singleton.mp h') ▸ hc
    rw [← hlb]
    intro hcontra
    exact hlne ((strMk_eq_nil_iff l).mp hcontra)

/-! ## Completer: clean scans of markdown-free text -/

/-- A scanner state with no open construct and no pending run. -/
def CleanScan (s : ScanState) : Prop :=
  s.fence = none ∧ s.math = false ∧ s.code = none ∧ s.parDepth = 0 ∧
    s.stack = [] ∧ s.run = none

theorem processChar_clean (s : ScanState) (c : Char) (h : CleanScan s)
    (hc : plainChar c = true) : CleanScan (processChar s c) := by
  obtain ⟨h1, h2, h3, h4, h5, h6⟩ := h
  have hrun : isRunChar c = false := by
    unfold plainChar at hc
    simp only [Bool.and_eq_true, Bool.not_eq_true', decide_eq_true_eq] at hc
    exact hc.1.1.1.1
  have hpl : c ≠ '[' ∧ c ≠ ']' ∧ c ≠ '(' ∧ c ≠ ')' := by
    unfold plainChar at hc
    simp only [Bool.and_eq_true, Bool.not_eq_true', decide_eq_true_eq] at hc
    exact ⟨hc.1.1.1.2, hc.1.1.2, hc.1.2, hc.2⟩
  unfold processChar
  rw [hrun]
  simp only [Bool.false_eq_true, if_false, ite_false, h1, h3, Option.isSome_none,
    Bool.false_eq_true, if_false, ite_false, h2, h4]
  simp only [lt_irrefl, if_false, ite_false]
  rw [if_neg (by rintro ⟨_, h'⟩; exact hpl.2.2.1 h'), if_neg hpl.1, if_neg hpl.2.1]
  exact ⟨rfl, rfl, rfl, rfl, h5, h6⟩

theorem step_clean (s : ScanState) (c : Char) (h : CleanScan s)
    (hc : plainChar c = true) : CleanScan (step s c) := by
  unfold step
  rw [h.2.2.2.2.2]
  exact processChar_clean s c h hc

theorem foldl_clean (l : List Char) (s : ScanState) (h : CleanScan s)
    (hl : ∀ c ∈ l, plainChar c = true) : CleanScan (l.foldl step s) := by
  induction l generalizing s with
  | nil => exact h
  | cons c t ih =>
    exact ih (step s c) (step_clean s c h (hl c (by simp)))
      (fun d hd => hl d (by simp [hd]))

theorem closersOf_clean (s : ScanState) (h : CleanScan s) :
    closersOf s = [] := by
  obtain ⟨h1, h2, h3, h4, h5, _⟩ := h
  unfold closersOf
  rw [h3, h1, h5, h4]
  simp [h2, emphClosers, fenceClosers]

/-- C4: the Segmenter and Completer are total string functions: the completer
only ever extends its input with appended closers (so it always returns a
string result), text containing no markdown constructs is returned unchanged,
an internally malformed region (unmatched closers, a dangling marker with
nothing to attach to) is left as literal text, and the segmenter yields a
well-defined, non-empty block sequence for every non-empty input. -/
theorem engine_total :
    (∀ t : String, ∃ r : String, parseIncompleteMarkdown t = t ++ r) ∧
    (∀ t : String, NoMarkdownText t → parseIncompleteMarkdown t = t) ∧
    parseIncompleteMarkdown ")] *" = ")] *" ∧
    (∀ t : String, t ≠ "" → parseMarkdownIntoBlocks t ≠ []) := by
  refine ⟨fun t => ⟨String.mk (closersOf (scanBlock t)), rfl⟩, ?_, by decide, ?_⟩
  · intro t ht
    have hclean : CleanScan (scanChars t.data) :=
      foldl_clean t.data initScan ⟨rfl, rfl, rfl, rfl, rfl, rfl⟩ ht
    have hfin : finalizeEOI (scanChars t.data) = scanChars t.data := by
      unfold finalizeEOI
      rw [hclean.2.2.2.2.2]
    unfold parseIncompleteMarkdown scanBlock
    rw [hfin, closersOf_clean _ hclean, str_append_nil]
  · intro t ht hcontra
    rw [parseMarkdownIntoBlocks_eq] at hcontra
    have hnil := List.map_eq_nil_iff.mp hcontra
    have hfin : (t.data.foldl segStep initSeg).finished = [] :=
      (List.append_eq_nil.mp hnil).1
    have hcur : (t.data.foldl segStep initSeg).cur = [] := by
      by_cases hc : (t.data.foldl segStep initSeg).cur = []
      · exact hc
      · rw [if_neg hc] at hnil
        exact absurd (List.append_eq_nil.mp hnil).2 (by simp)
    have hj := segFoldl_join_init t
    unfold segJoin at hj
    rw [hfin, hcur] at hj
    apply ht
    rw [← strMk_data t, ← hj]
    rfl

/-- C10: the `Block` component passes each block verbatim to the markdown
renderer when incomplete-markdown parsing is disabled, and passes
`parseIncompleteMarkdown (content.trim)` when it is enabled; hence a block
with surrounding whitespace that is already complete markdown is still
altered by enabling completion. -/
theorem block_parsedContent_spec :
    (∀ c : String, parsedContent false c = c) ∧
    (∀ c : String, parsedContent true c =
      parseIncompleteMarkdown (strTrim c)) ∧
    parsedContent true " a " ≠ " a " ∧
    parseIncompleteMarkdown " a " = " a " := by
  refine ⟨fun c => rfl, fun c => rfl, by decide, by decide⟩

/-- C6: a word-internal underscore run is literal text — the completer leaves
`"hello_world"` unchanged — while a genuine dangling italic opener is closed:
`"_italic text"` gains a matching trailing underscore. -/
theorem underscore_handling :
    parseIncompleteMarkdown "hello_world" = "hello_world" ∧
    parseIncompleteMarkdown "_italic text" = "_italic text_" := by
  constructor <;> decide

/-- C3: prefix stability — for every pair of texts `t` and `t ++ u`, the block
sequence of `t` with its last element dropped is a prefix of the block
sequence of `t ++ u`. -/
theorem segmenter_prefix_stable (t u : String) :
    (parseMarkdownIntoBlocks t).dropLast <+: parseMarkdownIntoBlocks (t ++ u) := by
  rw [parseMarkdownIntoBlocks_eq, parseMarkdownIntoBlocks_eq,
    str_data_append, List.foldl_append]
  obtain ⟨k, hk⟩ := segFoldl_fin_ext u.data (t.data.foldl segStep initSeg)
  rw [hk]
  set f1 := (t.data.foldl segStep initSeg).finished with hf1
  set X2 :=
    (if (List.foldl segStep (t.data.foldl segStep initSeg) u.data).cur = []
     then ([] : List (List Char))
     else [(List.foldl segStep (t.data.foldl segStep initSeg) u.data).cur])
    with hX2
  by_cases hc : (t.data.foldl segStep initSeg).cur = []
  · simp only [hc, if_true, ite_true, List.append_nil]
    obtain ⟨r0, h0⟩ := listDropLastExt (f1.map String.mk)
    refine ⟨r0 ++ (k ++ X2).map String.mk, ?_⟩
    rw [← List.append_assoc, h0, ← List.map_append, ← List.append_assoc]
  · simp only [hc, if_false, ite_false]
    refine ⟨(k ++ X2).map String.mk, ?_⟩
    rw [List.map_append, List.map_cons, List.map_nil, List.dropLast_concat,
      ← List.map_append, ← List.append_assoc]

/-! ## Completer: scanner invariant -/

theorem isRunChar_cases (c : Char) (h : isRunChar c = true) :
    c = '`' ∨ c = '~' ∨ c = '*' ∨ c = '_' ∨ c = '$' := by
  unfold isRunChar at h
  simp only [Bool.or_eq_true, decide_eq_true_eq] at h
  tauto

theorem finalizeRun_fields (s : ScanState) (rc : Char) (n : Nat)
    (next : Option Char) :
    (finalizeRun s rc n next).brDepth = s.brDepth ∧
    (finalizeRun s rc n next).afterBr = s.afterBr ∧
    (finalizeRun s rc n next).parDepth = s.parDepth ∧
    (finalizeRun s rc n next).runAtLS = s.runAtLS ∧
    (finalizeRun s rc n next).runPrev = s.runPrev ∧
    (finalizeRun s rc n next).run = none ∧
    (finalizeRun s rc n next).prev = some rc ∧
    (finalizeRun s rc n next).atLS = false := by
  unfold finalizeRun emphRun runBase
  dsimp only
  repeat' split
  all_goals exact ⟨rfl, rfl, rfl, rfl, rfl, rfl, rfl, rfl⟩

/-- Well-formedness of the delimiter stack: every entry is an
emphasis/strikethrough marker with positive count (tilde entries at most 2,
the pushed `~~`), and entry characters are pairwise distinct (a run whose
marker is already open closes it instead of being pushed). -/
def GoodStack (st : List (Char × Nat)) : Prop :=
  (∀ e ∈ st, (e.1 = '*' ∨ e.1 = '_' ∨ e.1 = '~') ∧ 1 ≤ e.2 ∧
    (e.1 = '~' → e.2 ≤ 2)) ∧
  st.Pairwise (fun a b => a.1 ≠ b.1)

theorem hasEntry_false_mem (st : List (Char × Nat)) (c : Char)
    (h : hasEntry st c = false) : ∀ b ∈ st, ¬(b.1 = c) := by
  intro b hb hbc
  have htrue : hasEntry st c = true := by
    unfold hasEntry
    rw [List.any_eq_true]
    exact ⟨b, hb, by simp [hbc]⟩
  rw [htrue] at h
  exact Bool.true_eq_false.mp h

theorem closeTop_chars (st : List (Char × Nat)) (c : Char) (n : Nat) :
    ∀ e ∈ closeTop st c n, ∃ m', (e.1, m') ∈ st := by
  induction st with
  | nil => intro e he; exact absurd he (by simp [closeTop])
  | cons hd rest ih =>
    obtain ⟨c', m⟩ := hd
    intro e he
    unfold closeTop at he
    by_cases hc : c' = c
    · rw [if_pos hc] at he
      by_cases hnm : n < m
      · rw [if_pos hnm] at he
        rcases List.mem_cons.mp he with h' | h'
        · exact ⟨m, by rw [h']; exact List.mem_cons_self _ _⟩
        · exact ⟨e.2, by right; exact (by simpa using h')⟩
      · rw [if_neg hnm] at he
        exact ⟨e.2, by right; simpa using he⟩
    · rw [if_neg hc] at he
      rcases List.mem_cons.mp he with h' | h'
      · exact ⟨m, by rw [h']; exact List.mem_cons_self _ _⟩
      · obtain ⟨m', hm'⟩ := ih e h'
        exact ⟨m', List.mem_cons_of_mem _ hm'⟩

theorem goodStack_closeTop (st : List (Char × Nat)) (c : Char) (n : Nat)
    (h : GoodStack st) : GoodStack (closeTop st c n) := by
  induction st with
  | nil => exact h
  | cons hd rest ih =>
    obtain ⟨c', m⟩ := hd
    obtain ⟨hall, hpw⟩ := h
    have hpw' := List.pairwise_cons.mp hpw
    have hrestGood : GoodStack rest :=
      ⟨fun e he => hall e (List.mem_cons_of_mem _ he), hpw'.2⟩
    unfold closeTop
    by_cases hc : c' = c
    · rw [if_pos hc]
      by_cases hnm : n < m
      · rw [if_pos hnm]
        constructor
        · intro e he
          rcases List.mem_cons.mp he with h' | h'
          · have hhd := hall (c', m) (List.mem_cons_self _ _)
            rw [h']
            exact ⟨hhd.1, by omega, fun ht => by have := hhd.2.2 ht; omega⟩
          · exact hall e (List.mem_cons_of_mem _ h')
        · exact List.pairwise_cons.mpr ⟨fun b hb => hpw'.1 b hb, hpw'.2⟩
      · rw [if_neg hnm]
        exact hrestGood
    · rw [if_neg hc]
      obtain ⟨ihall, ihpw⟩ := ih hrestGood
      constructor
      · intro e he
        rcases List.mem_cons.mp he with h' | h'
        · rw [h']
          exact hall (c', m) (List.mem_cons_self _ _)
        · exact ihall e h'
      · refine List.pairwise_cons.mpr ⟨?_, ihpw⟩
        intro b hb
        obtain ⟨m', hm'⟩ := closeTop_chars rest c n b hb
        exact hpw'.1 (b.1, m') hm'

/-- Reachability invariant of the completer's scanner: the open-construct
exclusivity (an open fence rules out an open code span and open math; an open
code span rules out open math), positivity of fence and code-opener lengths,
well-formedness of the delimiter stack, and well-formedness of the pending
run. -/
structure ScanInv (s : ScanState) : Prop where
  fenceOK : ∀ fc fl, s.fence = some (fc, fl) →
    (fc = '`' ∨ fc = '~') ∧ 1 ≤ fl ∧ s.code = none ∧ s.math = false ∧
      (fc = '~' → hasEntry s.stack '~' = false)
  codeOK : ∀ cN hc, s.code = some (cN, hc) → 1 ≤ cN ∧ s.math = false
  stackOK : GoodStack s.stack
  runOK : ∀ rc n, s.run = some (rc, n) → isRunChar rc = true ∧ 1 ≤ n

theorem inv_emphRun (base : ScanState) (c : Char) (n : Nat)
    (rprev next : Option Char) (tilde : Bool)
    (hB : ScanInv base) (hbf : base.fence = none)
    (hc : c = '*' ∨ c = '_' ∨ c = '~')
    (hn : 1 ≤ n) (htc : tilde = true ↔ c = '~') :
    ScanInv (emphRun base c n rprev next tilde) := by
  obtain ⟨hF, hC, hS, hR⟩ := hB
  have hFv : ∀ {fc' : Char} {fl' : Nat},
      base.fence = some (fc', fl') → False := by
    intro fc' fl' h'
    rw [hbf] at h'
    cases h'
  unfold emphRun
  by_cases hhas : hasEntry base.stack c = true
  · rw [if_pos hhas]
    exact ⟨(fun fc' fl' h' => absurd h' (fun h'' => hFv h'')), hC,
      goodStack_closeTop _ _ _ hS, hR⟩
  · rw [if_neg hhas]
    by_cases hop : (openerOK rprev next && (!tilde || decide (2 ≤ n))) = true
    · rw [if_pos hop]
      refine ⟨(fun fc' fl' h' => absurd h' (fun h'' => hFv h'')), hC,
        ⟨?_, ?_⟩, hR⟩
      · intro e he
        rcases List.mem_cons.mp he with h' | h'
        · subst h'
          refine ⟨hc, ?_, ?_⟩
          · cases htl : tilde
            · simp [htl]
              omega
            · simp [htl]
          · intro hct
            have : tilde = true := htc.mpr hct
            simp [this]
        · exact hS.1 e h'
      · refine List.pairwise_cons.mpr ⟨?_, hS.2⟩
        intro b hb
        exact fun hcb =>
          hasEntry_false_mem base.stack c (Bool.not_eq_true _ ▸ (by simpa using hhas)) b hb (hcb.symm)
    · rw [if_neg hop]
      exact ⟨hF, hC, hS, hR⟩


theorem finalizeRun_eq_fence (s : ScanState) (rc : Char) (n : Nat)
    (next : Option Char) (fc : Char) (fl : Nat) (hf : s.fence = some (fc, fl)) :
    finalizeRun s rc n next =
      if rc = fc ∧ s.runAtLS = true ∧ fl ≤ n then
        { runBase s rc with fence := none }
      else runBase s rc := by
  unfold finalizeRun
  rw [hf]

theorem finalizeRun_eq_code (s : ScanState) (rc : Char) (n : Nat)
    (next : Option Char) (cN : Nat) (hcb : Bool) (hf : s.fence = none)
    (hc : s.code = some (cN, hcb)) :
    finalizeRun s rc n next =
      if rc = '`' ∧ cN ≤ n then { runBase s rc with code := none }
      else if rc = '`' then runBase s rc
      else { runBase s rc with code := some (cN, true) } := by
  unfold finalizeRun
  rw [hf, hc]

theorem finalizeRun_eq_normal (s : ScanState) (rc : Char) (n : Nat)
    (next : Option Char) (hf : s.fence = none) (hc : s.code = none) :
    finalizeRun s rc n next =
      if s.math = true then
        (if rc = '$' ∧ (n / 2) % 2 = 1 then { runBase s rc with math := false }
         else runBase s rc)
      else if rc = '`' then
        (if s.runAtLS = true ∧ 3 ≤ n then
          { runBase s rc with fence := some ('`', n) }
         else { runBase s rc with code := some (n, false) })
      else if rc = '~' then
        (if s.runAtLS = true ∧ 3 ≤ n ∧ hasEntry s.stack '~' = false then
          { runBase s rc with fence := some ('~', n) }
         else emphRun (runBase s rc) '~' n s.runPrev next true)
      else if rc = '$' then
        (if (n / 2) % 2 = 1 then { runBase s rc with math := true }
         else runBase s rc)
      else if rc = '_' ∧ wordInternal s.runPrev next = true then runBase s rc
      else emphRun (runBase s rc) rc n s.runPrev next false := by
  unfold finalizeRun
  rw [hf, hc]

theorem inv_runBase (s : ScanState) (rc : Char) (hInv : ScanInv s) :
    ScanInv (runBase s rc) :=
  ⟨hInv.fenceOK, hInv.codeOK, hInv.stackOK, fun _ _ h => by cases h⟩

theorem inv_finalizeRun (s : ScanState) (rc : Char) (n : Nat)
    (next : Option Char) (hInv : ScanInv s) (hrc : isRunChar rc = true)
    (hn : 1 ≤ n) : ScanInv (finalizeRun s rc n next) := by
  obtain ⟨hF, hC, hS, hR⟩ := hInv
  have hBase : ScanInv (runBase s rc) := inv_runBase s rc ⟨hF, hC, hS, hR⟩
  have hRunNone : ∀ (rc' : Char) (n' : Nat),
      (none : Option (Char × Nat)) = some (rc', n') →
        isRunChar rc' = true ∧ 1 ≤ n' := by
    intro _ _ h
    cases h
  rcases hf : s.fence with _ | ⟨fc, fl⟩
  · rcases hcd : s.code with _ | ⟨cN, hcb⟩
    · -- normal mode
      have hfv : ∀ {fc' : Char} {fl' : Nat},
          s.fence = some (fc', fl') → False := by
        intro fc' fl' h'
        rw [hf] at h'
        cases h'
      have hcv : ∀ {cN' : Nat} {hc' : Bool},
          s.code = some (cN', hc') → False := by
        intro cN' hc' h'
        rw [hcd] at h'
        cases h'
      rw [finalizeRun_eq_normal s rc n next hf hcd]
      by_cases hm : s.math = true
      · rw [if_pos hm]
        split
        · exact ⟨(fun fc' fl' h' => absurd h' (fun h'' => hfv h'')),
            (fun cN' hc' h' => absurd h' (fun h'' => hcv h'')), hS, hRunNone⟩
        · exact hBase
      · rw [if_neg hm]
        have hm' : s.math = false := by
          cases hmv : s.math
          · rfl
          · exact absurd hmv hm
        by_cases h1 : rc = '`'
        · rw [if_pos h1]
          split
          · refine ⟨?_, (fun cN' hc' h' => absurd h' (fun h'' => hcv h'')),
              hS, hRunNone⟩
            intro fc' fl' h'
            cases h'
            exact ⟨Or.inl rfl, by omega, hcd, hm',
              fun h => absurd h (by decide)⟩
          · refine ⟨(fun fc' fl' h' => absurd h' (fun h'' => hfv h'')), ?_,
              hS, hRunNone⟩
            intro cN' hc' h'
            cases h'
            exact ⟨hn, hm'⟩
        · rw [if_neg h1]
          by_cases h2 : rc = '~'
          · rw [if_pos h2]
            split
            · rename_i hcnd
              refine ⟨?_, (fun cN' hc' h' => absurd h' (fun h'' => hcv h'')),
                hS, hRunNone⟩
              intro fc' fl' h'
              cases h'
              exact ⟨Or.inr rfl, by omega, hcd, hm', fun _ => hcnd.2.2⟩
            · exact inv_emphRun _ _ _ _ _ _ hBase hf (Or.inr (Or.inr rfl))
                hn (by simp)
          · rw [if_neg h2]
            by_cases h3 : rc = '$'
            · rw [if_pos h3]
              split
              · exact ⟨(fun fc' fl' h' => absurd h' (fun h'' => hfv h'')),
                  (fun cN' hc' h' => absurd h' (fun h'' => hcv h'')), hS,
                  hRunNone⟩
              · exact hBase
            · rw [if_neg h3]
              have hstar : rc = '*' ∨ rc = '_' := by
                rcases isRunChar_cases rc hrc with h | h | h | h | h <;> tauto
              split
              · exact hBase
              · refine inv_emphRun _ _ _ _ _ _ hBase hf ?_ hn ?_
                · tauto
                · constructor
                  · intro h'
                    cases h'
                  · intro h'
                    rcases hstar with h | h <;> rw [h] at h' <;> cases h'
    · -- open inline code span
      have hfv : ∀ {fc' : Char} {fl' : Nat},
          s.fence = some (fc', fl') → False := by
        intro fc' fl' h'
        rw [hf] at h'
        cases h'
      rw [finalizeRun_eq_code s rc n next cN hcb hf hcd]
      split
      · refine ⟨(fun fc' fl' h' => absurd h' (fun h'' => hfv h'')), ?_, hS,
          hRunNone⟩
        intro cN' hc' h'
        cases h'
      · split
        · exact hBase
        · refine ⟨(fun fc' fl' h' => absurd h' (fun h'' => hfv h'')), ?_, hS,
            hRunNone⟩
          intro cN' hc' h'
          cases h'
          exact hC cN hcb hcd
  · -- open fence
    rw [finalizeRun_eq_fence s rc n next fc fl hf]
    split
    · refine ⟨(fun fc' fl' h' => by cases h'), ?_, hS, hRunNone⟩
      intro cN' hc' h'
      have hcn := (hF fc fl hf).2.2.1
      have h'' : s.code = some (cN', hc') := h'
      rw [hcn] at h''
      cases h''
    · exact hBase

theorem processChar_eq_run (s : ScanState) (c : Char)
    (h : isRunChar c = true) :
    processChar s c =
      { s with run := some (c, 1), runAtLS := s.atLS, runPrev := s.prev,
               afterBr := false } := by
  unfold processChar
  rw [if_pos h]

theorem processChar_eq_fence (s : ScanState) (c : Char)
    (hrc : isRunChar c = false) (fc : Char) (fl : Nat)
    (hf : s.fence = some (fc, fl)) :
    processChar s c = { s with atLS := decide (c = '\n'), prev := some c } := by
  unfold processChar
  rw [if_neg (by simp [hrc]), hf]
  rfl

theorem processChar_eq_code (s : ScanState) (c : Char)
    (hrc : isRunChar c = false) (cN : Nat) (hcb : Bool)
    (hf : s.fence = none) (hc : s.code = some (cN, hcb)) :
    processChar s c =
      { s with atLS := decide (c = '\n'), prev := some c,
               code := some (cN, true) } := by
  unfold processChar
  rw [if_neg (by simp [hrc]), hf, hc]
  rfl

theorem processChar_eq_normal (s : ScanState) (c : Char)
    (hrc : isRunChar c = false) (hf : s.fence = none) (hc : s.code = none) :
    processChar s c =
      (let s' := { s with atLS := decide (c = '\n'), prev := some c }
       if s.math = true then s'
       else if 0 < s.parDepth then
         if c = '(' then { s' with parDepth := s.parDepth + 1 }
         else if c = ')' then { s' with parDepth := s.parDepth - 1 }
         else s'
       else if s.afterBr = true ∧ c = '(' then
         { s' with parDepth := 1, afterBr := false }
       else if c = '[' then
         { s' with brDepth := s.brDepth + 1, afterBr := false }
       else if c = ']' then
         if 0 < s.brDepth then
           { s' with brDepth := s.brDepth - 1, afterBr := s.brDepth = 1 }
         else { s' with afterBr := false }
       else { s' with afterBr := false }) := by
  unfold processChar
  rw [if_neg (by simp [hrc]), hf, hc]
  rfl

theorem inv_processChar (s : ScanState) (c : Char) (hInv : ScanInv s) :
    ScanInv (processChar s c) := by
  obtain ⟨hF, hC, hS, hR⟩ := hInv
  by_cases hrc : isRunChar c = true
  · rw [processChar_eq_run s c hrc]
    refine ⟨hF, hC, hS, ?_⟩
    intro rc' n' h'
    cases h'
    exact ⟨hrc, le_refl 1⟩
  · have hrc' : isRunChar c = false := by
      cases hv : isRunChar c
      · rfl
      · exact absurd hv hrc
    rcases hf : s.fence with _ | ⟨fc, fl⟩
    · rcases hcd : s.code with _ | ⟨cN, hcb⟩
      · rw [processChar_eq_normal s c hrc' hf hcd]
        dsimp only
        repeat' split
        all_goals exact ⟨(fun fc' fl' h' => hF fc' fl' h'),
          (fun cN' hc' h' => hC cN' hc' h'), hS,
          (fun rc' n' h' => hR rc' n' h')⟩
      · rw [processChar_eq_code s c hrc' cN hcb hf hcd]
        refine ⟨?_, ?_, hS, (fun rc' n' h' => hR rc' n' h')⟩
        · intro fc' fl' h'
          have h'' : s.fence = some (fc', fl') := h'
          rw [hf] at h''
          cases h''
        · intro cN' hc' h'
          cases h'
          exact hC cN hcb hcd
    · rw [processChar_eq_fence s c hrc' fc fl hf]
      exact ⟨(fun fc' fl' h' => hF fc' fl' h'),
        (fun cN' hc' h' => hC cN' hc' h'), hS,
        (fun rc' n' h' => hR rc' n' h')⟩

theorem inv_step (s : ScanState) (c : Char) (hInv : ScanInv s) :
    ScanInv (step s c) := by
  unfold step
  rcases hr : s.run with _ | ⟨rc, n⟩
  · exact inv_processChar s c hInv
  · dsimp only
    split
    · obtain ⟨hF, hC, hS, hR⟩ := hInv
      refine ⟨hF, hC, hS, ?_⟩
      intro rc' n' h'
      cases h'
      exact ⟨(hR rc n hr).1, by omega⟩
    · have hrun := hInv.runOK rc n hr
      exact inv_processChar _ c
        (inv_finalizeRun s rc n (some c) hInv hrun.1 hrun.2)

theorem inv_initScan : ScanInv initScan := by
  refine ⟨?_, ?_, ⟨?_, ?_⟩, ?_⟩
  · intro fc fl h
    cases h
  · intro cN hc h
    cases h
  · intro e he
    exact absurd he (List.not_mem_nil e)
  · exact List.Pairwise.nil
  · intro rc n h
    cases h

theorem inv_foldl (l : List Char) (s : ScanState) (hInv : ScanInv s) :
    ScanInv (l.foldl step s) := by
  induction l generalizing s with
  | nil => exact hInv
  | cons c t ih => exact ih (step s c) (inv_step s c hInv)

theorem inv_finalizeEOI (s : ScanState) (hInv : ScanInv s) :
    ScanInv (finalizeEOI s) := by
  unfold finalizeEOI
  rcases hr : s.run with _ | ⟨rc, n⟩
  · exact hInv
  · have hrun := hInv.runOK rc n hr
    exact inv_finalizeRun s rc n none hInv hrun.1 hrun.2

theorem inv_scanBlock (t : String) : ScanInv (scanBlock t) :=
  inv_finalizeEOI _ (inv_foldl t.data initScan inv_initScan)

/-! ## Completer: scanning the appended closers -/

theorem step_eq_none (s : ScanState) (c : Char) (h : s.run = none) :
    step s c = processChar s c := by
  unfold step
  rw [h]

theorem step_eq_extend (s : ScanState) (rc : Char) (n : Nat)
    (h : s.run = some (rc, n)) :
    step s rc = { s with run := some (rc, n + 1) } := by
  unfold step
  rw [h]
  show (if rc = rc then { s with run := some (rc, n + 1) }
        else processChar (finalizeRun s rc n (some rc)) rc) =
      { s with run := some (rc, n + 1) }
  rw [if_pos rfl]

theorem step_eq_other (s : ScanState) (rc : Char) (n : Nat) (c : Char)
    (h : s.run = some (rc, n)) (hne : c ≠ rc) :
    step s c = processChar (finalizeRun s rc n (some c)) c := by
  unfold step
  rw [h]
  show (if c = rc then { s with run := some (rc, n + 1) }
        else processChar (finalizeRun s rc n (some c)) c) =
      processChar (finalizeRun s rc n (some c)) c
  rw [if_neg hne]

theorem foldl_replicate_extend (k : Nat) :
    ∀ (s : ScanState) (rc : Char) (n : Nat), s.run = some (rc, n) →
      List.foldl step s (List.replicate k rc) =
        { s with run := some (rc, n + k) } := by
  induction k with
  | zero =>
    intro s rc n h
    simp only [List.replicate, List.foldl_nil, Nat.add_zero]
    rw [← h]
  | succ k ih =>
    intro s rc n h
    rw [List.replicate_succ, List.foldl_cons, step_eq_extend s rc n h,
      ih _ rc (n + 1) rfl]
    have harith : n + 1 + k = n + (k + 1) := by omega
    rw [harith]

theorem foldl_replicate_start (k : Nat) (hk : 1 ≤ k) (s : ScanState)
    (c : Char) (hrun : s.run = none) (hc : isRunChar c = true) :
    List.foldl step s (List.replicate k c) =
      { s with run := some (c, k), runAtLS := s.atLS, runPrev := s.prev,
               afterBr := false } := by
  obtain ⟨k', rfl⟩ : ∃ k', k = k' + 1 := ⟨k - 1, by omega⟩
  rw [List.replicate_succ, List.foldl_cons, step_eq_none s c hrun,
    processChar_eq_run s c hc,
    foldl_replicate_extend k' _ c 1 rfl]
  have harith : 1 + k' = k' + 1 := by omega
  rw [harith]

theorem wordInternal_next (r : Option Char) (next : Option Char)
    (h : ∀ w, next = some w → isWordChar w = false) :
    wordInternal r next = false := by
  unfold wordInternal
  rcases next with _ | w
  · simp
  · simp [h w rfl]

theorem openerOK_next (r : Option Char) (next : Option Char)
    (h : ∀ w, next = some w → isWordChar w = false) :
    openerOK r next = false := by
  unfold openerOK
  rcases next with _ | w
  · simp
  · simp [h w rfl]

theorem hasEntry_cons_self (c : Char) (m : Nat) (st : List (Char × Nat)) :
    hasEntry ((c, m) :: st) c = true := by
  simp [hasEntry]

theorem closeTop_cons_self (c : Char) (m : Nat) (st : List (Char × Nat)) :
    closeTop ((c, m) :: st) c m = st := by
  simp [closeTop]

/-- Finalizing a pending emphasis/strikethrough run that matches the top of
the delimiter stack pops that entry, whenever the following character is not a
word character (as is the case for every appended closer character and at end
of input). -/
theorem finalize_emph_close (s : ScanState) (c0 : Char) (m0 : Nat)
    (next : Option Char) (hf : s.fence = none) (hc : s.code = none)
    (hm : s.math = false) (st : List (Char × Nat))
    (hstack : s.stack = (c0, m0) :: st)
    (hchar : c0 = '*' ∨ c0 = '_' ∨ c0 = '~')
    (htilde : c0 = '~' → m0 ≤ 2)
    (hnext : ∀ w, next = some w → isWordChar w = false) :
    finalizeRun s c0 m0 next = { runBase s c0 with stack := st } := by
  rw [finalizeRun_eq_normal s c0 m0 next hf hc]
  rw [if_neg (by rw [hm]; exact Bool.false_ne_true)]
  have hbstack : (runBase s c0).stack = (c0, m0) :: st := hstack
  rcases hchar with h0 | h0 | h0 <;> subst h0
  · rw [if_neg (by decide), if_neg (by decide), if_neg (by decide),
      if_neg (by rintro ⟨h', -⟩; exact absurd h' (by decide))]
    unfold emphRun
    rw [hbstack, hasEntry_cons_self, if_pos rfl, closeTop_cons_self]
  · rw [if_neg (by decide), if_neg (by decide), if_neg (by decide),
      if_neg (by
        rintro ⟨-, h'⟩
        rw [wordInternal_next s.runPrev next hnext] at h'
        cases h')]
    unfold emphRun
    rw [hbstack, hasEntry_cons_self, if_pos rfl, closeTop_cons_self]
  · rw [if_neg (by decide), if_pos rfl]
    rw [if_neg (by rintro ⟨-, h3⟩; have := htilde rfl; omega)]
    unfold emphRun
    rw [hbstack, hasEntry_cons_self, if_pos rfl, closeTop_cons_self]

/-- Scanning the closing runs for the open delimiter-stack entries empties the
stack: stated for a state whose pending run matches the top entry, by
induction over the remaining entries. -/
theorem emphClosers_scan (st : List (Char × Nat)) :
    ∀ (s : ScanState) (c0 : Char) (m0 : Nat),
      s.run = some (c0, m0) → s.stack = (c0, m0) :: st →
      s.fence = none → s.code = none → s.math = false →
      GoodStack ((c0, m0) :: st) →
      ∃ (ab rA : Bool) (rP pv : Option Char),
        finalizeEOI (List.foldl step s (emphClosers st)) =
          { s with
            stack := [], run := none, afterBr := ab, runAtLS := rA,
            runPrev := rP, atLS := false, prev := pv } := by
  induction st with
  | nil =>
    intro s c0 m0 hrun hstack hf hc hm hG
    have hhd1 : c0 = '*' ∨ c0 = '_' ∨ c0 = '~' :=
      (hG.1 (c0, m0) (List.mem_cons_self _ _)).1
    have hhd3 : c0 = '~' → m0 ≤ 2 :=
      (hG.1 (c0, m0) (List.mem_cons_self _ _)).2.2
    refine ⟨s.afterBr, s.runAtLS, s.runPrev, some c0, ?_⟩
    show finalizeEOI (List.foldl step s []) = _
    rw [List.foldl_nil]
    unfold finalizeEOI
    rw [hrun]
    exact finalize_emph_close s c0 m0 none hf hc hm [] hstack hhd1 hhd3
      (fun w hw => by cases hw)
  | cons hd tl ih =>
    obtain ⟨c1, m1⟩ := hd
    intro s c0 m0 hrun hstack hf hc hm hG
    have hhd1 : c0 = '*' ∨ c0 = '_' ∨ c0 = '~' :=
      (hG.1 (c0, m0) (List.mem_cons_self _ _)).1
    have hhd3 : c0 = '~' → m0 ≤ 2 :=
      (hG.1 (c0, m0) (List.mem_cons_self _ _)).2.2
    have hent1 : ((c1, m1) : Char × Nat) ∈ (c0, m0) :: (c1, m1) :: tl := by
      simp
    have hcases : c1 = '*' ∨ c1 = '_' ∨ c1 = '~' := (hG.1 (c1, m1) hent1).1
    have hm1 : 1 ≤ m1 := (hG.1 (c1, m1) hent1).2.1
    have hne : c0 ≠ c1 :=
      (List.pairwise_cons.mp hG.2).1 (c1, m1) (by simp)
    have hc1run : isRunChar c1 = true := by
      rcases hcases with h | h | h <;> rw [h] <;> decide
    have hc1word : isWordChar c1 = false := by
      rcases hcases with h | h | h <;> rw [h] <;> decide
    obtain ⟨m1p, rfl⟩ : ∃ m1p, m1 = m1p + 1 := ⟨m1 - 1, by omega⟩
    obtain ⟨ab, rA, rP, pv, hfin⟩ :=
      ih ({ s with
            stack := (c1, m1p + 1) :: tl, run := some (c1, m1p + 1),
            runAtLS := false, runPrev := some c0, afterBr := false,
            atLS := false, prev := some c0 }) c1 (m1p + 1) rfl rfl hf hc hm
        ⟨fun e he => hG.1 e (List.mem_cons_of_mem _ he),
         (List.pairwise_cons.mp hG.2).2⟩
    refine ⟨ab, rA, rP, pv, ?_⟩
    show finalizeEOI (List.foldl step s
      (List.replicate (m1p + 1) c1 ++ emphClosers tl)) = _
    rw [List.foldl_append, List.replicate_succ, List.foldl_cons,
      step_eq_other s c0 m0 c1 hrun (fun h => hne h.symm),
      finalize_emph_close s c0 m0 (some c1) hf hc hm ((c1, m1p + 1) :: tl)
        hstack hhd1 hhd3 (fun w hw => by cases hw; exact hc1word),
      processChar_eq_run _ c1 hc1run,
      foldl_replicate_extend m1p _ c1 1 rfl]
    have harith : 1 + m1p = m1p + 1 := by omega
    rw [harith]
    exact hfin

/-- Scanning `p` closing parentheses from a state with open-paren depth `p`
and no other open construct brings the depth to zero. -/
theorem foldl_par_scan (p : Nat) :
    ∀ (s : ScanState), s.run = none → s.fence = none → s.code = none →
      s.math = false → s.parDepth = p → 1 ≤ p →
      List.foldl step s (List.replicate p ')') =
        { s with parDepth := 0, atLS := false, prev := some ')' } := by
  induction p with
  | zero =>
    intro s _ _ _ _ _ h
    omega
  | succ p ih =>
    intro s hrun hf hc hm hp _
    rw [List.replicate_succ, List.foldl_cons, step_eq_none s ')' hrun,
      processChar_eq_normal s ')' (by decide) hf hc]
    dsimp only
    rw [if_neg (by rw [hm]; exact Bool.false_ne_true)]
    rw [if_pos (by rw [hp]; omega)]
    rw [if_neg (by decide), if_pos rfl]
    by_cases hp0 : p = 0
    · subst hp0
      rw [List.replicate_zero, List.foldl_nil]
      simp [hp]
    · have hpd : ({ s with
          atLS := decide (')' = '\n'), prev := some ')',
          parDepth := s.parDepth - 1 } : ScanState).parDepth = p := by
        show s.parDepth - 1 = p
        omega
      have h2 := ih ({ s with
          atLS := decide (')' = '\n'), prev := some ')',
          parDepth := s.parDepth - 1 }) hrun hf hc hm hpd (by omega)
      rw [h2]

theorem fenceClosers_none (b : Bool) : fenceClosers none b = [] := rfl

theorem fenceClosers_some (fc : Char) (fl : Nat) (b : Bool) :
    fenceClosers (some (fc, fl)) b =
      '\n' :: (List.replicate fl fc ++ (if b then [] else ['\n'])) := rfl

theorem closersOf_code_false (s : ScanState) (cN : Nat)
    (h : s.code = some (cN, false)) : closersOf s = [] := by
  unfold closersOf
  rw [h]

theorem closersOf_code_true (s : ScanState) (cN : Nat)
    (h : s.code = some (cN, true)) :
    closersOf s =
      List.replicate cN '`' ++ List.replicate s.parDepth ')' ++
        emphClosers s.stack := by
  unfold closersOf
  rw [h]

theorem closersOf_none_code (s : ScanState) (h : s.code = none) :
    closersOf s =
      fenceClosers s.fence s.stack.isEmpty ++
      (if s.math then ['$', '$'] else []) ++
      List.replicate s.parDepth ')' ++
      emphClosers s.stack := by
  unfold closersOf
  rw [h]

theorem closersOf_clear (s : ScanState) (hf : s.fence = none)
    (hc : s.code = none) (hm : s.math = false) :
    closersOf s = List.replicate s.parDepth ')' ++ emphClosers s.stack := by
  rw [closersOf_none_code s hc, hf, fenceClosers_none, hm]
  simp

/-- The stack-closing phase for a state with no pending run, zero paren depth
and all gated constructs closed. -/
theorem estack_scan (st : List (Char × Nat)) (s : ScanState)
    (hrun : s.run = none) (hf : s.fence = none) (hc : s.code = none)
    (hm : s.math = false) (hp : s.parDepth = 0) (hst : s.stack = st)
    (hG : GoodStack st) :
    closersOf (finalizeEOI (List.foldl step s (emphClosers st))) = [] := by
  rcases st with _ | ⟨⟨c0, m0⟩, tl⟩
  · show closersOf (finalizeEOI (List.foldl step s [])) = []
    rw [List.foldl_nil]
    have hEOI : finalizeEOI s = s := by
      unfold finalizeEOI
      rw [hrun]
    rw [hEOI]
    exact closersOf_clean s ⟨hf, hm, hc, hp, hst, hrun⟩
  · have hhd := hG.1 (c0, m0) (List.mem_cons_self _ _)
    have hcc : c0 = '*' ∨ c0 = '_' ∨ c0 = '~' := hhd.1
    have hm0 : 1 ≤ m0 := hhd.2.1
    have hc0run : isRunChar c0 = true := by
      rcases hcc with h | h | h <;> rw [h] <;> decide
    show closersOf (finalizeEOI (List.foldl step s
      (List.replicate m0 c0 ++ emphClosers tl))) = []
    rw [List.foldl_append, foldl_replicate_start m0 hm0 s c0 hrun hc0run]
    obtain ⟨ab, rA, rP, pv, hfin⟩ :=
      emphClosers_scan tl
        ({ s with run := some (c0, m0), runAtLS := s.atLS,
                  runPrev := s.prev, afterBr := false }) c0 m0 rfl hst hf hc
        hm hG
    rw [hfin]
    exact closersOf_clean _ ⟨hf, hm, hc, hp, rfl, rfl⟩

/-- The full tail phase (paren closers then stack closers) from a state with
no pending run and all gated constructs closed. -/
theorem tail_scan (p : Nat) (st : List (Char × Nat)) (s : ScanState)
    (hrun : s.run = none) (hf : s.fence = none) (hc : s.code = none)
    (hm : s.math = false) (hp : s.parDepth = p) (hst : s.stack = st)
    (hG : GoodStack st) :
    closersOf (finalizeEOI (List.foldl step s
      (List.replicate p ')' ++ emphClosers st))) = [] := by
  by_cases hp0 : p = 0
  · subst hp0
    rw [List.replicate_zero, List.nil_append]
    exact estack_scan st s hrun hf hc hm hp hst hG
  · rw [List.foldl_append, foldl_par_scan p s hrun hf hc hm hp (by omega)]
    exact estack_scan st _ hrun hf hc hm rfl hst hG

/-- The full tail phase from a state whose pending run closes the remaining
gated construct (the appended gate closer merged into, or became, the pending
run): the run's marker does not occur in the delimiter stack, and finalizing
it — with any following character — yields the gate-closed state. -/
theorem tail_scan_pending (p : Nat) (st : List (Char × Nat)) (s : ScanState)
    (rc : Char) (n : Nat) (hrun : s.run = some (rc, n))
    (hp : s.parDepth = p) (hst : s.stack = st) (hG : GoodStack st)
    (hrcs : ∀ e ∈ st, e.1 ≠ rc) (hrcrun : isRunChar rc = true)
    (hkey : ∀ next, finalizeRun s rc n next =
      { s with run := none, atLS := false, prev := some rc,
               fence := none, code := none, math := false }) :
    closersOf (finalizeEOI (List.foldl step s
      (List.replicate p ')' ++ emphClosers st))) = [] := by
  have hrcpar : ')' ≠ rc := by
    intro h
    rw [← h] at hrcrun
    exact absurd hrcrun (by decide)
  by_cases hp0 : p = 0
  · subst hp0
    rw [List.replicate_zero, List.nil_append]
    rcases st with _ | ⟨⟨c0, m0⟩, tl⟩
    · show closersOf (finalizeEOI (List.foldl step s [])) = []
      rw [List.foldl_nil]
      have hEOI : finalizeEOI s = finalizeRun s rc n none := by
        unfold finalizeEOI
        rw [hrun]
      rw [hEOI, hkey none]
      exact closersOf_clean _ ⟨rfl, rfl, rfl, hp, hst, rfl⟩
    · have hhd := hG.1 (c0, m0) (List.mem_cons_self _ _)
      have hcc : c0 = '*' ∨ c0 = '_' ∨ c0 = '~' := hhd.1
      have hm0 : 1 ≤ m0 := hhd.2.1
      have hc0run : isRunChar c0 = true := by
        rcases hcc with h | h | h <;> rw [h] <;> decide
      have hne0 : c0 ≠ rc := hrcs (c0, m0) (List.mem_cons_self _ _)
      obtain ⟨m0p, rfl⟩ : ∃ m0p, m0 = m0p + 1 := ⟨m0 - 1, by omega⟩
      show closersOf (finalizeEOI (List.foldl step s
        (List.replicate (m0p + 1) c0 ++ emphClosers tl))) = []
      rw [List.foldl_append, List.replicate_succ, List.foldl_cons,
        step_eq_other s rc n c0 hrun hne0, hkey (some c0),
        processChar_eq_run _ c0 hc0run,
        foldl_replicate_extend m0p _ c0 1 rfl]
      have harith : 1 + m0p = m0p + 1 := by omega
      rw [harith]
      obtain ⟨ab, rA, rP, pv, hfin⟩ :=
        emphClosers_scan tl
          ({ s with
             run := some (c0, m0p + 1), atLS := false, prev := some rc,
             fence := none, code := none, math := false, runAtLS := false,
             runPrev := some rc, afterBr := false }) c0 (m0p + 1) rfl hst rfl
          rfl rfl hG
      exact (congrArg closersOf hfin).trans
        (closersOf_clean _ ⟨rfl, rfl, rfl, hp, rfl, rfl⟩)
  · obtain ⟨pp, rfl⟩ : ∃ pp, p = pp + 1 := ⟨p - 1, by omega⟩
    rw [List.replicate_succ, List.cons_append, List.foldl_cons,
      step_eq_other s rc n ')' hrun hrcpar, hkey (some ')'),
      processChar_eq_normal _ ')' (by decide) rfl rfl]
    dsimp only
    rw [if_neg (by simp)]
    rw [if_pos (show 0 < s.parDepth by omega)]
    rw [if_neg (by decide), if_pos rfl]
    exact tail_scan pp st _ rfl rfl rfl rfl (by show s.parDepth - 1 = pp; omega)
      hst hG

theorem stack_char_ne (st : List (Char × Nat)) (hG : GoodStack st) (c : Char)
    (h1 : ¬(c = '*' ∨ c = '_' ∨ c = '~')) : ∀ e ∈ st, e.1 ≠ c := by
  intro e he heq
  exact h1 (heq ▸ (hG.1 e he).1)

theorem gate_close_fence (u : ScanState) (rc : Char)
    (hc : u.code = none) (hm : u.math = false) :
    ({ runBase u rc with fence := none } : ScanState) =
      { u with run := none, atLS := false, prev := some rc,
               fence := none, code := none, math := false } := by
  obtain ⟨f, m, c, bd, ab, pd, stk, r, rA, rP, aL, pv⟩ := u
  have hc' : c = none := hc
  have hm' : m = false := hm
  subst hc'
  subst hm'
  rfl

theorem gate_close_code (u : ScanState) (rc : Char)
    (hf : u.fence = none) (hm : u.math = false) :
    ({ runBase u rc with code := none } : ScanState) =
      { u with run := none, atLS := false, prev := some rc,
               fence := none, code := none, math := false } := by
  obtain ⟨f, m, c, bd, ab, pd, stk, r, rA, rP, aL, pv⟩ := u
  have hf' : f = none := hf
  have hm' : m = false := hm
  subst hf'
  subst hm'
  rfl

theorem gate_close_math (u : ScanState) (rc : Char)
    (hf : u.fence = none) (hc : u.code = none) :
    ({ runBase u rc with math := false } : ScanState) =
      { u with run := none, atLS := false, prev := some rc,
               fence := none, code := none, math := false } := by
  obtain ⟨f, m, c, bd, ab, pd, stk, r, rA, rP, aL, pv⟩ := u
  have hf' : f = none := hf
  have hc' : c = none := hc
  subst hf'
  subst hc'
  rfl

/-- Finalizing a pending dollar run of math-closing parity while block math is
open closes the math region, leaving every gate closed. -/
theorem key_math (s : ScanState) (n : Nat) (hf : s.fence = none)
    (hc : s.code = none) (hm : s.math = true) (hn : (n / 2) % 2 = 1) :
    ∀ next, finalizeRun s '$' n next =
      { s with run := none, atLS := false, prev := some '$',
               fence := none, code := none, math := false } := by
  intro next
  rw [finalizeRun_eq_normal s '$' n next hf hc, if_pos hm, if_pos ⟨rfl, hn⟩]
  exact gate_close_math s '$' hf hc

/-- Finalizing a pending backtick run of at-least-opener length while an
inline code span is open closes the span, leaving every gate closed. -/
theorem key_code (s : ScanState) (cN : Nat) (cb : Bool) (n : Nat)
    (hf : s.fence = none) (hc : s.code = some (cN, cb)) (hm : s.math = false)
    (hn : cN ≤ n) :
    ∀ next, finalizeRun s '`' n next =
      { s with run := none, atLS := false, prev := some '`',
               fence := none, code := none, math := false } := by
  intro next
  rw [finalizeRun_eq_code s '`' n next cN cb hf hc, if_pos ⟨rfl, hn⟩]
  exact gate_close_code s '`' hf hm

/-- Finalizing a pending line-start run of the fence character with
at-least-opener length while a fence is open closes the fence, leaving every
gate closed. -/
theorem key_fence (s : ScanState) (fc : Char) (fl : Nat) (n : Nat)
    (hf : s.fence = some (fc, fl)) (hA : s.runAtLS = true) (hn : fl ≤ n)
    (hc : s.code = none) (hm : s.math = false) :
    ∀ next, finalizeRun s fc n next =
      { s with run := none, atLS := false, prev := some fc,
               fence := none, code := none, math := false } := by
  intro next
  rw [finalizeRun_eq_fence s fc n next fc fl hf, if_pos ⟨rfl, hA, hn⟩]
  exact gate_close_fence s fc hc hm

/-- The tail phase from a state whose pending run closes the open fence: after
the fence-closing run there is a conditional newline separator (present
exactly when delimiter-stack closers follow), then the paren and stack
closers. -/
theorem fence_tail (p : Nat) (st : List (Char × Nat)) (u : ScanState)
    (fc : Char) (fl : Nat)
    (hrun : u.run = some (fc, fl)) (hf : u.fence = some (fc, fl))
    (hA : u.runAtLS = true) (hc : u.code = none) (hm : u.math = false)
    (hp : u.parDepth = p) (hst : u.stack = st) (hG : GoodStack st)
    (hrcs : ∀ e ∈ st, e.1 ≠ fc) (hfcrun : isRunChar fc = true)
    (hnl : ¬(('\n' : Char) = fc)) :
    closersOf (finalizeEOI (List.foldl step u
      ((if st.isEmpty then [] else ['\n']) ++
        (List.replicate p ')' ++ emphClosers st)))) = [] := by
  have hkey := key_fence u fc fl fl hf hA (le_refl fl) hc hm
  rcases st with _ | ⟨e, tl⟩
  · exact tail_scan_pending p [] u fc fl hrun hp hst hG hrcs hfcrun hkey
  · show closersOf (finalizeEOI (List.foldl step u
      ('\n' :: (List.replicate p ')' ++ emphClosers (e :: tl))))) = []
    rw [List.foldl_cons, step_eq_other u fc fl '\n' hrun hnl,
      hkey (some '\n')]
    have hpc := processChar_eq_normal
      ({ u with run := none, atLS := false, prev := some fc,
                fence := none, code := none, math := false } : ScanState)
      '\n' (by decide) rfl rfl
    rw [hpc]
    dsimp only
    rw [if_neg (show ¬(false = true) from Bool.false_ne_true)]
    by_cases hpp : 0 < u.parDepth
    · rw [if_pos hpp, if_neg (show ¬(('\n' : Char) = '(') by decide),
        if_neg (show ¬(('\n' : Char) = ')') by decide)]
      exact tail_scan p (e :: tl) _ rfl rfl rfl rfl hp hst hG
    · rw [if_neg hpp,
        if_neg (show ¬(u.afterBr = true ∧ ('\n' : Char) = '(') by
          rintro ⟨-, h2⟩
          exact absurd h2 (by decide)),
        if_neg (show ¬(('\n' : Char) = '[') by decide),
        if_neg (show ¬(('\n' : Char) = ']') by decide)]
      exact tail_scan p (e :: tl) _ rfl rfl rfl rfl hp hst hG

/-- Re-scanning the closers appended for a state with no pending run yields no
further closers: the appended closers exactly close every open construct. -/
theorem closers_scan_norun (v : ScanState) (hInv : ScanInv v)
    (hr : v.run = none) :
    closersOf (finalizeEOI (List.foldl step v (closersOf v))) = [] := by
  rcases hcv : v.code with _ | ⟨cN, cb⟩
  · -- no open inline code span
    rcases hfv : v.fence with _ | ⟨fc, fl⟩
    · -- no open fence
      rw [closersOf_none_code v hcv, hfv, fenceClosers_none, List.nil_append]
      by_cases hmv : v.math = true
      · -- open $$ math: the closers open with the closing "$$"
        rw [if_pos hmv, List.append_assoc, List.foldl_append]
        have h2 : (['$', '$'] : List Char) = List.replicate 2 '$' := rfl
        rw [h2, foldl_replicate_start 2 (by omega) v '$' hr (by decide)]
        exact tail_scan_pending v.parDepth v.stack _ '$' 2 rfl rfl rfl
          hInv.stackOK (stack_char_ne v.stack hInv.stackOK '$' (by decide))
          (by decide) (key_math _ 2 hfv hcv hmv (by decide))
      · -- everything but parens and the stack is closed
        have hmv' : v.math = false := by
          cases hb : v.math
          · rfl
          · exact absurd hb hmv
        rw [if_neg hmv, List.nil_append]
        exact tail_scan v.parDepth v.stack v hr hfv hcv hmv' rfl rfl
          hInv.stackOK
    · -- open fence: closers open with '\n' then the closing fence run
      have hfo := hInv.fenceOK fc fl hfv
      have hfcc : fc = '`' ∨ fc = '~' := hfo.1
      have hfl : 1 ≤ fl := hfo.2.1
      have hmv : v.math = false := hfo.2.2.2.1
      have htil : fc = '~' → hasEntry v.stack '~' = false := hfo.2.2.2.2
      have hnl : ¬(('\n' : Char) = fc) := by
        rcases hfcc with h | h <;> rw [h] <;> decide
      have hfcrun : isRunChar fc = true := by
        rcases hfcc with h | h <;> rw [h] <;> decide
      have hrcs : ∀ e ∈ v.stack, e.1 ≠ fc := by
        rcases hfcc with h | h
        · subst h
          exact stack_char_ne v.stack hInv.stackOK '`' (by decide)
        · subst h
          exact fun e he => hasEntry_false_mem v.stack '~' (htil rfl) e he
      rw [closersOf_none_code v hcv, hfv, fenceClosers_some,
        if_neg (show ¬(v.math = true) by
          rw [hmv]; exact Bool.false_ne_true), List.append_nil,
        List.append_assoc, List.cons_append, List.foldl_cons,
        step_eq_none v '\n' hr,
        processChar_eq_fence v '\n' (by decide) fc fl hfv,
        List.append_assoc, List.foldl_append]
      have hstart := foldl_replicate_start fl hfl
        ({ v with atLS := decide (('\n' : Char) = '\n'),
                  prev := some '\n' } : ScanState) fc hr hfcrun
      rw [hstart]
      exact fence_tail v.parDepth v.stack _ fc fl rfl hfv rfl hcv hmv rfl rfl
        hInv.stackOK hrcs hfcrun hnl
  · -- open inline code span
    have hfv : v.fence = none := by
      rcases hf2 : v.fence with _ | ⟨fc, fl⟩
      · rfl
      · have h' := (hInv.fenceOK fc fl hf2).2.2.1
        rw [hcv] at h'
        cases h'
    have hcN1 : 1 ≤ cN := (hInv.codeOK cN cb hcv).1
    have hmv : v.math = false := (hInv.codeOK cN cb hcv).2
    cases cb with
    | false =>
      -- empty opener: no closers at all
      rw [closersOf_code_false v cN hcv, List.foldl_nil]
      have hEOI : finalizeEOI v = v := by
        unfold finalizeEOI
        rw [hr]
      rw [hEOI]
      exact closersOf_code_false v cN hcv
    | true =>
      -- closers open with the closing backtick run
      rw [closersOf_code_true v cN hcv, List.append_assoc, List.foldl_append,
        foldl_replicate_start cN hcN1 v '`' hr (by decide)]
      exact tail_scan_pending v.parDepth v.stack _ '`' cN rfl rfl rfl
        hInv.stackOK (stack_char_ne v.stack hInv.stackOK '`' (by decide))
        (by decide) (key_code _ cN true cN hfv hcv hmv (le_refl cN))

theorem emphRun_next (base : ScanState) (c : Char) (n : Nat)
    (rprev : Option Char) (c0 : Char) (hw : isWordChar c0 = false)
    (tflag : Bool) :
    emphRun base c n rprev (some c0) tflag =
      emphRun base c n rprev none tflag := by
  unfold emphRun
  rw [openerOK_next rprev (some c0) (fun w hw' => by cases hw'; exact hw),
    openerOK_next rprev none (fun w hw' => by cases hw')]

/-- The finalization of a pending run does not depend on the following
character as long as that character is not a word character (the opener
flanking rule and the word-internal underscore rule are the only consumers of
the following character, and both only test for a word character). -/
theorem finalizeRun_next_nonword (s : ScanState) (rc : Char) (n : Nat)
    (c0 : Char) (hw : isWordChar c0 = false) :
    finalizeRun s rc n (some c0) = finalizeRun s rc n none := by
  rcases hf : s.fence with _ | ⟨fc, fl⟩
  · rcases hc : s.code with _ | ⟨cN, cb⟩
    · rw [finalizeRun_eq_normal s rc n (some c0) hf hc,
        finalizeRun_eq_normal s rc n none hf hc,
        emphRun_next (runBase s rc) '~' n s.runPrev c0 hw true,
        emphRun_next (runBase s rc) rc n s.runPrev c0 hw false,
        wordInternal_next s.runPrev (some c0)
          (fun w hw' => by cases hw'; exact hw),
        wordInternal_next s.runPrev none (fun w hw' => by cases hw')]
    · rw [finalizeRun_eq_code s rc n (some c0) cN cb hf hc,
        finalizeRun_eq_code s rc n none cN cb hf hc]
  · rw [finalizeRun_eq_fence s rc n (some c0) fc fl hf,
      finalizeRun_eq_fence s rc n none fc fl hf]

/-- Scanning a character that differs from the pending run marker and is not a
word character is the same as scanning it from the end-of-input finalization
of the run. -/
theorem foldl_boundary (u : ScanState) (rc : Char) (n : Nat)
    (hrun : u.run = some (rc, n)) (c0 : Char) (t : List Char)
    (hne : c0 ≠ rc) (hw : isWordChar c0 = false) :
    List.foldl step u (c0 :: t) =
      List.foldl step (finalizeRun u rc n none) (c0 :: t) := by
  rw [List.foldl_cons, List.foldl_cons, step_eq_other u rc n c0 hrun hne,
    finalizeRun_next_nonword u rc n c0 hw,
    step_eq_none (finalizeRun u rc n none) c0
      (finalizeRun_fields u rc n none).2.2.2.2.2.1]

theorem replicate_append_cons (k : Nat) (c : Char) (rest : List Char)
    (c0 : Char) (t : List Char)
    (h : List.replicate k c ++ rest = c0 :: t) :
    (1 ≤ k ∧ c0 = c) ∨ (k = 0 ∧ rest = c0 :: t) := by
  cases k with
  | zero =>
    right
    exact ⟨rfl, by simpa using h⟩
  | succ k =>
    left
    rw [List.replicate_succ, List.cons_append] at h
    exact ⟨by omega, (((List.cons.injEq _ _ _ _).mp h).1).symm⟩

theorem emphClosers_head_good (st : List (Char × Nat)) (hG : GoodStack st)
    (c0 : Char) (t : List Char) (h : emphClosers st = c0 :: t) :
    ∃ m tl2, st = (c0, m) :: tl2 := by
  rcases st with _ | ⟨⟨c1, m1⟩, tl⟩
  · exact absurd h (by simp [emphClosers])
  · have hm1 : 1 ≤ m1 := (hG.1 (c1, m1) (List.mem_cons_self _ _)).2.1
    have h' : List.replicate m1 c1 ++ emphClosers tl = c0 :: t := h
    rcases replicate_append_cons m1 c1 _ c0 t h' with ⟨-, rfl⟩ | ⟨hm0, -⟩
    · exact ⟨m1, tl, rfl⟩
    · omega

theorem closersOf_clear_head (s : ScanState) (hf : s.fence = none)
    (hc : s.code = none) (hm : s.math = false) (hG : GoodStack s.stack)
    (c0 : Char) (t : List Char) (h : closersOf s = c0 :: t) :
    (c0 = ')' ∧ 1 ≤ s.parDepth) ∨ (∃ m tl2, s.stack = (c0, m) :: tl2) := by
  rw [closersOf_clear s hf hc hm] at h
  rcases replicate_append_cons s.parDepth ')' _ c0 t h with ⟨hp, rfl⟩ | ⟨-, h2⟩
  · exact Or.inl ⟨rfl, hp⟩
  · exact Or.inr (emphClosers_head_good s.stack hG c0 t h2)

theorem closersOf_codeT_head (s : ScanState) (cN : Nat)
    (hc : s.code = some (cN, true)) (h1 : 1 ≤ cN)
    (c0 : Char) (t : List Char) (h : closersOf s = c0 :: t) : c0 = '`' := by
  rw [closersOf_code_true s cN hc, List.append_assoc] at h
  rcases replicate_append_cons cN '`' _ c0 t h with ⟨-, rfl⟩ | ⟨h0, -⟩
  · rfl
  · omega

theorem closersOf_fence_head (s : ScanState) (fc : Char) (fl : Nat)
    (hc : s.code = none) (hf : s.fence = some (fc, fl))
    (c0 : Char) (t : List Char) (h : closersOf s = c0 :: t) : c0 = '\n' := by
  rw [closersOf_none_code s hc, hf, fenceClosers_some] at h
  simp only [List.cons_append] at h
  exact (((List.cons.injEq _ _ _ _).mp h).1).symm

theorem closersOf_math_head (s : ScanState) (hc : s.code = none)
    (hf : s.fence = none) (hm : s.math = true)
    (c0 : Char) (t : List Char) (h : closersOf s = c0 :: t) : c0 = '$' := by
  rw [closersOf_none_code s hc, hf, fenceClosers_none, List.nil_append,
    if_pos hm] at h
  simp only [List.cons_append] at h
  exact (((List.cons.injEq _ _ _ _).mp h).1).symm

theorem closeTop_cons_ne (c1 : Char) (m1 : Nat) (rest : List (Char × Nat))
    (c : Char) (n : Nat) (h : ¬(c1 = c)) :
    closeTop ((c1, m1) :: rest) c n = (c1, m1) :: closeTop rest c n := by
  simp only [closeTop]
  rw [if_neg h]

theorem closeTop_cons_eq (c : Char) (m1 : Nat) (rest : List (Char × Nat))
    (n : Nat) :
    closeTop ((c, m1) :: rest) c n =
      if n < m1 then (c, m1 - n) :: rest else rest := by
  unfold closeTop
  rw [if_pos rfl]

theorem emphRun_close (base : ScanState) (c : Char) (n : Nat)
    (rp next : Option Char) (tflag : Bool)
    (h : hasEntry base.stack c = true) :
    emphRun base c n rp next tflag =
      { base with stack := closeTop base.stack c n } := by
  unfold emphRun
  rw [if_pos h]

theorem emphRun_skip (base : ScanState) (c : Char) (n : Nat)
    (rp next : Option Char) (tflag : Bool)
    (h1 : hasEntry base.stack c = false) (h2 : openerOK rp next = false) :
    emphRun base c n rp next tflag = base := by
  unfold emphRun
  rw [if_neg (show ¬(hasEntry base.stack c = true) by
        rw [h1]; exact Bool.false_ne_true),
    if_neg (show ¬((openerOK rp next && (!tflag || decide (2 ≤ n))) = true) by
        rw [h2]; simp)]

theorem gate_close_base (u : ScanState) (rc : Char) (hf : u.fence = none)
    (hc : u.code = none) (hm : u.math = false) :
    runBase u rc =
      { u with run := none, atLS := false, prev := some rc,
               fence := none, code := none, math := false } := by
  obtain ⟨f, m, c, bd, ab, pd, stk, r, rA, rP, aL, pv⟩ := u
  have hf' : f = none := hf
  have hc' : c = none := hc
  have hm' : m = false := hm
  subst hf'
  subst hc'
  subst hm'
  rfl

/-- Finalizing a pending dollar run of literal (non-toggling) parity in normal
mode leaves the state gate-closed: the run is literal text. -/
theorem key_dollar_even (s : ScanState) (n : Nat) (hf : s.fence = none)
    (hc : s.code = none) (hm : s.math = false) (hn : (n / 2) % 2 = 0) :
    ∀ next, finalizeRun s '$' n next =
      { s with run := none, atLS := false, prev := some '$',
               fence := none, code := none, math := false } := by
  intro next
  rw [finalizeRun_eq_normal s '$' n next hf hc,
    if_neg (show ¬(s.math = true) by rw [hm]; exact Bool.false_ne_true),
    if_neg (show ¬(('$' : Char) = '`') by decide),
    if_neg (show ¬(('$' : Char) = '~') by decide),
    if_pos rfl, if_neg (show ¬((n / 2) % 2 = 1) by omega)]
  exact gate_close_base s '$' hf hc hm

theorem emph_char_nonword (c : Char) (h : c = '*' ∨ c = '_' ∨ c = '~') :
    isWordChar c = false := by
  rcases h with h | h | h <;> rw [h] <;> decide

/-- If the first appended closer differs from the pending run marker (and is
not a word character), the rescan behaves as if the run had been finalized at
end of input, and the no-pending-run analysis applies. -/
theorem scan_from_pending (u : ScanState) (rc : Char) (n : Nat)
    (hInv : ScanInv u) (hrun : u.run = some (rc, n))
    (hrc : isRunChar rc = true) (hn : 1 ≤ n)
    (hne : ∀ c0 t, closersOf (finalizeRun u rc n none) = c0 :: t →
      c0 ≠ rc ∧ isWordChar c0 = false) :
    closersOf (finalizeEOI (List.foldl step u
      (closersOf (finalizeRun u rc n none)))) = [] := by
  have hInvW := inv_finalizeRun u rc n none hInv hrc hn
  have hwr : (finalizeRun u rc n none).run = none :=
    (finalizeRun_fields u rc n none).2.2.2.2.2.1
  rcases hcl : closersOf (finalizeRun u rc n none) with _ | ⟨c0, t⟩
  · rw [List.foldl_nil]
    have hEOI : finalizeEOI u = finalizeRun u rc n none := by
      unfold finalizeEOI
      rw [hrun]
    rw [hEOI]
    exact hcl
  · obtain ⟨hne0, hw0⟩ := hne c0 t hcl
    rw [foldl_boundary u rc n hrun c0 t hne0 hw0, ← hcl]
    exact closers_scan_norun (finalizeRun u rc n none) hInvW hwr

/-- Rescanning the appended closers when the pending run went through the
emphasis/strikethrough delimiter logic at end of input: the run either closed
(part of) the open entry for its marker — possibly leaving a remainder that
the first appended closing run then completes — or was literal, and in every
case the appended closers close everything that is still open. -/
theorem emph_scan_close (u : ScanState) (rc : Char) (n : Nat)
    (hInv : ScanInv u) (hrun : u.run = some (rc, n))
    (hrc : isRunChar rc = true) (hn : 1 ≤ n)
    (hcc : rc = '*' ∨ rc = '_' ∨ rc = '~')
    (hfu : u.fence = none) (hcu : u.code = none) (hmu : u.math = false)
    (tflag : Bool)
    (hw : finalizeRun u rc n none =
      emphRun (runBase u rc) rc n u.runPrev none tflag) :
    closersOf (finalizeEOI (List.foldl step u
      (closersOf (finalizeRun u rc n none)))) = [] := by
  have hG := hInv.stackOK
  have hopF : openerOK u.runPrev none = false :=
    openerOK_next u.runPrev none (fun w hw' => by cases hw')
  by_cases hent : hasEntry u.stack rc = true
  · -- the run closes against its open entry
    have hwc : finalizeRun u rc n none =
        { runBase u rc with stack := closeTop (runBase u rc).stack rc n } :=
      hw.trans (emphRun_close (runBase u rc) rc n u.runPrev none tflag hent)
    have hbs : (runBase u rc).stack = u.stack := rfl
    rw [hbs] at hwc
    rcases hstk : u.stack with _ | ⟨⟨c1, m1⟩, tl⟩
    · rw [hstk] at hent
      exact absurd hent (by simp [hasEntry])
    · rw [hstk] at hwc
      have hGc : GoodStack ((c1, m1) :: tl) := hstk ▸ hG
      by_cases hc1 : c1 = rc
      · subst hc1
        rw [closeTop_cons_eq c1 m1 tl n] at hwc
        by_cases hnm : n < m1
        · rw [if_pos hnm] at hwc
          by_cases hp0 : u.parDepth = 0
          · -- merge: the first appended stack-closing run continues the
            -- pending run, and together they close the full entry
            rw [hwc]
            have hcls := closersOf_clear
              ({ runBase u c1 with stack := (c1, m1 - n) :: tl } : ScanState)
              hfu hcu hmu
            rw [hcls]
            dsimp only [runBase]
            rw [hp0, List.replicate_zero, List.nil_append]
            show closersOf (finalizeEOI (List.foldl step u
              (List.replicate (m1 - n) c1 ++ emphClosers tl))) = []
            rw [List.foldl_append, foldl_replicate_extend (m1 - n) u c1 n hrun]
            have harith : n + (m1 - n) = m1 := by omega
            rw [harith]
            obtain ⟨ab, rA, rP, pv, hfin⟩ :=
              emphClosers_scan tl ({ u with run := some (c1, m1) }) c1 m1 rfl
                hstk hfu hcu hmu hGc
            exact (congrArg closersOf hfin).trans
              (closersOf_clean _ ⟨hfu, hmu, hcu, hp0, rfl, rfl⟩)
          · -- parentheses still open: the first appended closer is ')'
            refine scan_from_pending u c1 n hInv hrun hrc hn ?_
            intro c0 t hcl
            rw [hwc] at hcl
            have hcls := closersOf_clear
              ({ runBase u c1 with stack := (c1, m1 - n) :: tl } : ScanState)
              hfu hcu hmu
            rw [hcls] at hcl
            rcases replicate_append_cons _ ')' _ c0 t hcl with
              ⟨-, rfl⟩ | ⟨hp', -⟩
            · exact ⟨by rcases hcc with h | h | h <;> rw [h] <;> decide,
                by decide⟩
            · exact absurd hp' hp0
        · rw [if_neg hnm] at hwc
          -- the entry closes completely; the next entry has another marker
          have hGt : GoodStack tl :=
            ⟨fun e he => hGc.1 e (List.mem_cons_of_mem _ he),
             (List.pairwise_cons.mp hGc.2).2⟩
          refine scan_from_pending u c1 n hInv hrun hrc hn ?_
          intro c0 t hcl
          rw [hwc] at hcl
          rcases closersOf_clear_head
              ({ runBase u c1 with stack := tl } : ScanState) hfu hcu hmu hGt
              c0 t hcl with ⟨rfl, -⟩ | ⟨m, tl2, hhd⟩
          · exact ⟨by rcases hcc with h | h | h <;> rw [h] <;> decide,
              by decide⟩
          · have hhd' : tl = (c0, m) :: tl2 := hhd
            have hmem : ((c0, m) : Char × Nat) ∈ tl := by
              rw [hhd']
              exact List.mem_cons_self _ _
            have hne1 : c1 ≠ c0 :=
              (List.pairwise_cons.mp hGc.2).1 (c0, m) hmem
            exact ⟨fun he => hne1 he.symm,
              emph_char_nonword c0 (hGc.1 (c0, m)
                (List.mem_cons_of_mem _ hmem)).1⟩
      · -- the top entry has a different marker: it still heads the closers
        rw [closeTop_cons_ne c1 m1 tl rc n hc1] at hwc
        have hGW : GoodStack ((c1, m1) :: closeTop tl rc n) := by
          have h1 := goodStack_closeTop ((c1, m1) :: tl) rc n hGc
          rw [closeTop_cons_ne c1 m1 tl rc n hc1] at h1
          exact h1
        refine scan_from_pending u rc n hInv hrun hrc hn ?_
        intro c0 t hcl
        rw [hwc] at hcl
        rcases closersOf_clear_head
            ({ runBase u rc with
               stack := (c1, m1) :: closeTop tl rc n } : ScanState)
            hfu hcu hmu hGW c0 t hcl with ⟨rfl, -⟩ | ⟨m, tl2, hhd⟩
        · exact ⟨by rcases hcc with h | h | h <;> rw [h] <;> decide,
            by decide⟩
        · have hhd' : ((c1, m1) :: closeTop tl rc n) = (c0, m) :: tl2 := hhd
          have hc0 : c1 = c0 :=
            congrArg Prod.fst (List.cons.inj hhd').1
          exact ⟨fun he => hc1 (hc0.trans he),
            emph_char_nonword c0 (hc0 ▸ (hGc.1 (c1, m1)
              (List.mem_cons_self _ _)).1)⟩
  · -- no entry for the marker and the opener rule fails at end of input:
    -- the run is literal
    have hent' : hasEntry u.stack rc = false := by
      cases hb : hasEntry u.stack rc
      · rfl
      · exact absurd hb hent
    have hwb : finalizeRun u rc n none = runBase u rc :=
      hw.trans
        (emphRun_skip (runBase u rc) rc n u.runPrev none tflag hent' hopF)
    refine scan_from_pending u rc n hInv hrun hrc hn ?_
    intro c0 t hcl
    rw [hwb] at hcl
    rcases closersOf_clear_head (runBase u rc) hfu hcu hmu hG c0 t hcl with
      ⟨rfl, -⟩ | ⟨m, tl2, hhd⟩
    · exact ⟨by rcases hcc with h | h | h <;> rw [h] <;> decide, by decide⟩
    · have hhd' : u.stack = (c0, m) :: tl2 := hhd
      have hmem : ((c0, m) : Char × Nat) ∈ u.stack := by
        rw [hhd']
        exact List.mem_cons_self _ _
      exact ⟨fun he => hasEntry_false_mem u.stack rc hent' (c0, m) hmem he,
        emph_char_nonword c0 (hG.1 (c0, m) hmem).1⟩

/-- Rescanning the appended closers from the scan state reached at the end of
the original block (before end-of-input finalization) produces no further
closers: the core of the completer's idempotence.  The pending run, if any,
either finalizes unchanged at the first appended closer (a non-word, different
character) or merges with the first appended closing run, which then closes
the same construct with the combined length. -/
theorem closers_scan (u : ScanState) (hInv : ScanInv u) :
    closersOf (finalizeEOI (List.foldl step u
      (closersOf (finalizeEOI u)))) = [] := by
  rcases hr : u.run with _ | ⟨rc, n⟩
  · have hEOI : finalizeEOI u = u := by
      unfold finalizeEOI
      rw [hr]
    rw [hEOI]
    exact closers_scan_norun u hInv hr
  · have hEOI : finalizeEOI u = finalizeRun u rc n none := by
      unfold finalizeEOI
      rw [hr]
    rw [hEOI]
    have hrc : isRunChar rc = true := (hInv.runOK rc n hr).1
    have hn : 1 ≤ n := (hInv.runOK rc n hr).2
    rcases hfu : u.fence with _ | ⟨fc, fl⟩
    · -- no open fence
      rcases hcu : u.code with _ | ⟨cN, cb⟩
      · -- normal mode
        by_cases hmu : u.math = true
        · -- open block math
          by_cases hcond : rc = '$' ∧ (n / 2) % 2 = 1
          · -- the run itself closes the math region
            obtain ⟨h1, h2⟩ := hcond
            subst h1
            have hwc := key_math u n hfu hcu hmu h2 none
            refine scan_from_pending u '$' n hInv hr hrc hn ?_
            intro c0 t hcl
            rw [hwc] at hcl
            rcases closersOf_clear_head
                ({ u with run := none, atLS := false, prev := some '$',
                          fence := none, code := none, math := false } :
                  ScanState) rfl rfl rfl hInv.stackOK c0 t hcl with
              ⟨rfl, -⟩ | ⟨m, tl2, hhd⟩
            · exact ⟨by decide, by decide⟩
            · have hhd' : u.stack = (c0, m) :: tl2 := hhd
              have hmem : ((c0, m) : Char × Nat) ∈ u.stack := by
                rw [hhd']
                exact List.mem_cons_self _ _
              have hch : c0 = '*' ∨ c0 = '_' ∨ c0 = '~' :=
              (hInv.stackOK.1 (c0, m) hmem).1
              exact ⟨by rcases hch with h | h | h <;> rw [h] <;> decide,
                emph_char_nonword c0 hch⟩
          · -- the run does not close the math region
            have hwc : finalizeRun u rc n none = runBase u rc := by
              rw [finalizeRun_eq_normal u rc n none hfu hcu, if_pos hmu,
                if_neg hcond]
            by_cases hdol : rc = '$'
            · -- merge: the appended "$$" extends the run, and the combined
              -- parity closes the math region
              subst hdol
              have heven : (n / 2) % 2 = 0 := by
                rcases Nat.mod_two_eq_zero_or_one (n / 2) with h | h
                · exact h
                · exact absurd ⟨rfl, h⟩ hcond
              rw [hwc]
              have hcls := closersOf_none_code (runBase u '$') hcu
              rw [hcls]
              dsimp only [runBase]
              rw [hfu, fenceClosers_none, List.nil_append, if_pos hmu,
                List.append_assoc]
              have h2l : (['$', '$'] : List Char) = List.replicate 2 '$' := rfl
              rw [h2l, List.foldl_append, foldl_replicate_extend 2 u '$' n hr]
              exact tail_scan_pending u.parDepth u.stack _ '$' (n + 2) rfl rfl
                rfl hInv.stackOK
                (stack_char_ne u.stack hInv.stackOK '$' (by decide))
                (by decide) (key_math _ (n + 2) hfu hcu hmu (by omega))
            · -- the closers start with '$', different from the run marker
              refine scan_from_pending u rc n hInv hr hrc hn ?_
              intro c0 t hcl
              rw [hwc] at hcl
              have hc0 : c0 = '$' :=
                closersOf_math_head (runBase u rc) hcu hfu hmu c0 t hcl
              subst hc0
              exact ⟨fun he => hdol he.symm, by decide⟩
        · -- math closed as well: full normal mode
          have hmu' : u.math = false := by
            cases hb : u.math
            · rfl
            · exact absurd hb hmu
          have hmneg : ¬(u.math = true) := by
            rw [hmu']
            exact Bool.false_ne_true
          rcases isRunChar_cases rc hrc with h1 | h1 | h1 | h1 | h1
          · -- backtick run
            subst h1
            by_cases hLS : u.runAtLS = true ∧ 3 ≤ n
            · -- a fence opens: the closers start with '\n'
              have hwc : finalizeRun u '`' n none =
                  { runBase u '`' with fence := some ('`', n) } := by
                rw [finalizeRun_eq_normal u '`' n none hfu hcu,
                  if_neg hmneg, if_pos rfl, if_pos hLS]
              refine scan_from_pending u '`' n hInv hr hrc hn ?_
              intro c0 t hcl
              rw [hwc] at hcl
              have hc0 : c0 = '\n' :=
                closersOf_fence_head
                  ({ runBase u '`' with fence := some ('`', n) } : ScanState)
                  '`' n hcu rfl c0 t hcl
              subst hc0
              exact ⟨by decide, by decide⟩
            · -- a contentless code span opens: no closers at all
              have hwc : finalizeRun u '`' n none =
                  { runBase u '`' with code := some (n, false) } := by
                rw [finalizeRun_eq_normal u '`' n none hfu hcu,
                  if_neg hmneg, if_pos rfl, if_neg hLS]
              refine scan_from_pending u '`' n hInv hr hrc hn ?_
              intro c0 t hcl
              rw [hwc] at hcl
              rw [closersOf_code_false
                ({ runBase u '`' with code := some (n, false) } : ScanState)
                n rfl] at hcl
              exact absurd hcl (by simp)
          · -- tilde run
            subst h1
            by_cases hLS : u.runAtLS = true ∧ 3 ≤ n ∧
                hasEntry u.stack '~' = false
            · -- a tilde fence opens: the closers start with '\n'
              have hwc : finalizeRun u '~' n none =
                  { runBase u '~' with fence := some ('~', n) } := by
                rw [finalizeRun_eq_normal u '~' n none hfu hcu,
                  if_neg hmneg,
                  if_neg (show ¬(('~' : Char) = '`') by decide),
                  if_pos rfl, if_pos hLS]
              refine scan_from_pending u '~' n hInv hr hrc hn ?_
              intro c0 t hcl
              rw [hwc] at hcl
              have hc0 : c0 = '\n' :=
                closersOf_fence_head
                  ({ runBase u '~' with fence := some ('~', n) } : ScanState)
                  '~' n hcu rfl c0 t hcl
              subst hc0
              exact ⟨by decide, by decide⟩
            · -- strikethrough logic
              have hw : finalizeRun u '~' n none =
                  emphRun (runBase u '~') '~' n u.runPrev none true := by
                rw [finalizeRun_eq_normal u '~' n none hfu hcu,
                  if_neg hmneg,
                  if_neg (show ¬(('~' : Char) = '`') by decide),
                  if_pos rfl, if_neg hLS]
              exact emph_scan_close u '~' n hInv hr hrc hn
                (Or.inr (Or.inr rfl)) hfu hcu hmu' true hw
          · -- asterisk run
            subst h1
            have hw : finalizeRun u '*' n none =
                emphRun (runBase u '*') '*' n u.runPrev none false := by
              rw [finalizeRun_eq_normal u '*' n none hfu hcu,
                if_neg hmneg,
                if_neg (show ¬(('*' : Char) = '`') by decide),
                if_neg (show ¬(('*' : Char) = '~') by decide),
                if_neg (show ¬(('*' : Char) = '$') by decide),
                if_neg (show ¬(('*' : Char) = '_' ∧
                    wordInternal u.runPrev none = true) by
                  rintro ⟨h2, -⟩
                  exact absurd h2 (by decide))]
            exact emph_scan_close u '*' n hInv hr hrc hn (Or.inl rfl)
              hfu hcu hmu' false hw
          · -- underscore run (never word-internal at end of input)
            subst h1
            have hwd : wordInternal u.runPrev none = false :=
              wordInternal_next u.runPrev none (fun w hw' => by cases hw')
            have hw : finalizeRun u '_' n none =
                emphRun (runBase u '_') '_' n u.runPrev none false := by
              rw [finalizeRun_eq_normal u '_' n none hfu hcu,
                if_neg hmneg,
                if_neg (show ¬(('_' : Char) = '`') by decide),
                if_neg (show ¬(('_' : Char) = '~') by decide),
                if_neg (show ¬(('_' : Char) = '$') by decide),
                if_neg (show ¬(('_' : Char) = '_' ∧
                    wordInternal u.runPrev none = true) by
                  rintro ⟨-, h2⟩
                  rw [hwd] at h2
                  cases h2)]
            exact emph_scan_close u '_' n hInv hr hrc hn (Or.inr (Or.inl rfl))
              hfu hcu hmu' false hw
          · -- dollar run in normal mode
            subst h1
            by_cases hodd : (n / 2) % 2 = 1
            · -- math opens: merge with the appended "$$", the combined run
              -- has non-toggling parity and is literal
              have hwc : finalizeRun u '$' n none =
                  { runBase u '$' with math := true } := by
                rw [finalizeRun_eq_normal u '$' n none hfu hcu,
                  if_neg hmneg,
                  if_neg (show ¬(('$' : Char) = '`') by decide),
                  if_neg (show ¬(('$' : Char) = '~') by decide),
                  if_pos rfl, if_pos hodd]
              rw [hwc]
              have hcls := closersOf_none_code
                ({ runBase u '$' with math := true } : ScanState) hcu
              rw [hcls]
              dsimp only [runBase]
              rw [hfu, fenceClosers_none, List.nil_append,
                if_pos (show (true : Bool) = true from rfl),
                List.append_assoc]
              have h2l : (['$', '$'] : List Char) = List.replicate 2 '$' := rfl
              rw [h2l, List.foldl_append, foldl_replicate_extend 2 u '$' n hr]
              exact tail_scan_pending u.parDepth u.stack _ '$' (n + 2) rfl rfl
                rfl hInv.stackOK
                (stack_char_ne u.stack hInv.stackOK '$' (by decide))
                (by decide) (key_dollar_even _ (n + 2) hfu hcu hmu' (by omega))
            · -- literal dollar run: gates stay closed
              have heven : (n / 2) % 2 = 0 := by omega
              have hwc := key_dollar_even u n hfu hcu hmu' heven none
              refine scan_from_pending u '$' n hInv hr hrc hn ?_
              intro c0 t hcl
              rw [hwc] at hcl
              rcases closersOf_clear_head
                  ({ u with run := none, atLS := false, prev := some '$',
                            fence := none, code := none, math := false } :
                    ScanState) rfl rfl rfl hInv.stackOK c0 t hcl with
                ⟨rfl, -⟩ | ⟨m, tl2, hhd⟩
              · exact ⟨by decide, by decide⟩
              · have hhd' : u.stack = (c0, m) :: tl2 := hhd
                have hmem : ((c0, m) : Char × Nat) ∈ u.stack := by
                  rw [hhd']
                  exact List.mem_cons_self _ _
                have hch : c0 = '*' ∨ c0 = '_' ∨ c0 = '~' :=
              (hInv.stackOK.1 (c0, m) hmem).1
                exact ⟨by rcases hch with h | h | h <;> rw [h] <;> decide,
                  emph_char_nonword c0 hch⟩
      · -- open inline code span
        have hc1 : 1 ≤ cN := (hInv.codeOK cN cb hcu).1
        have hmu' : u.math = false := (hInv.codeOK cN cb hcu).2
        by_cases hcond : rc = '`' ∧ cN ≤ n
        · -- the run closes the span
          obtain ⟨h1, h2⟩ := hcond
          subst h1
          have hwc := key_code u cN cb n hfu hcu hmu' h2 none
          refine scan_from_pending u '`' n hInv hr hrc hn ?_
          intro c0 t hcl
          rw [hwc] at hcl
          rcases closersOf_clear_head
              ({ u with run := none, atLS := false, prev := some '`',
                        fence := none, code := none, math := false } :
                ScanState) rfl rfl rfl hInv.stackOK c0 t hcl with
            ⟨rfl, -⟩ | ⟨m, tl2, hhd⟩
          · exact ⟨by decide, by decide⟩
          · have hhd' : u.stack = (c0, m) :: tl2 := hhd
            have hmem : ((c0, m) : Char × Nat) ∈ u.stack := by
              rw [hhd']
              exact List.mem_cons_self _ _
            have hch : c0 = '*' ∨ c0 = '_' ∨ c0 = '~' :=
              (hInv.stackOK.1 (c0, m) hmem).1
            exact ⟨by rcases hch with h | h | h <;> rw [h] <;> decide,
              emph_char_nonword c0 hch⟩
        · by_cases h2 : rc = '`'
          · -- short backtick run inside the span: it merges with the
            -- appended closing run of the opener's length
            subst h2
            have hwc : finalizeRun u '`' n none = runBase u '`' := by
              rw [finalizeRun_eq_code u '`' n none cN cb hfu hcu,
                if_neg hcond, if_pos rfl]
            cases cb with
            | false =>
              rw [hwc]
              have hnil := closersOf_code_false (runBase u '`') cN hcu
              rw [hnil, List.foldl_nil, hEOI, hwc]
              exact hnil
            | true =>
              rw [hwc]
              have hcls := closersOf_code_true (runBase u '`') cN hcu
              rw [hcls]
              dsimp only [runBase]
              rw [List.append_assoc, List.foldl_append,
                foldl_replicate_extend cN u '`' n hr]
              exact tail_scan_pending u.parDepth u.stack _ '`' (n + cN) rfl
                rfl rfl hInv.stackOK
                (stack_char_ne u.stack hInv.stackOK '`' (by decide))
                (by decide)
                (key_code _ cN true (n + cN) hfu hcu hmu' (by omega))
          · -- another marker inside the span: span marked as having content,
            -- closers start with '`'
            have hwc : finalizeRun u rc n none =
                { runBase u rc with code := some (cN, true) } := by
              rw [finalizeRun_eq_code u rc n none cN cb hfu hcu,
                if_neg hcond, if_neg h2]
            refine scan_from_pending u rc n hInv hr hrc hn ?_
            intro c0 t hcl
            rw [hwc] at hcl
            have hc0 : c0 = '`' :=
              closersOf_codeT_head
                ({ runBase u rc with code := some (cN, true) } : ScanState)
                cN rfl hc1 c0 t hcl
            subst hc0
            exact ⟨fun he => h2 he.symm, by decide⟩
    · -- open fence
      have hfo := hInv.fenceOK fc fl hfu
      have hcu : u.code = none := hfo.2.2.1
      have hmu' : u.math = false := hfo.2.2.2.1
      by_cases hcond : rc = fc ∧ u.runAtLS = true ∧ fl ≤ n
      · -- the run closes the fence
        obtain ⟨h1, hA, hfln⟩ := hcond
        subst h1
        have hwc := key_fence u rc fl n hfu hA hfln hcu hmu' none
        refine scan_from_pending u rc n hInv hr hrc hn ?_
        intro c0 t hcl
        rw [hwc] at hcl
        rcases closersOf_clear_head
            ({ u with run := none, atLS := false, prev := some rc,
                      fence := none, code := none, math := false } :
              ScanState) rfl rfl rfl hInv.stackOK c0 t hcl with
          ⟨rfl, -⟩ | ⟨m, tl2, hhd⟩
        · exact ⟨by rcases hfo.1 with h | h <;> rw [h] <;> decide, by decide⟩
        · have hhd' : u.stack = (c0, m) :: tl2 := hhd
          have hmem : ((c0, m) : Char × Nat) ∈ u.stack := by
            rw [hhd']
            exact List.mem_cons_self _ _
          have hch : c0 = '*' ∨ c0 = '_' ∨ c0 = '~' :=
            (hInv.stackOK.1 (c0, m) hmem).1
          refine ⟨?_, emph_char_nonword c0 hch⟩
          intro he
          rcases hfo.1 with h | h
          · rcases hch with h3 | h3 | h3 <;> rw [h3, h] at he <;>
              exact absurd he (by decide)
          · exact hasEntry_false_mem u.stack '~' (hfo.2.2.2.2 h) (c0, m) hmem
              (he.trans h)
      · -- the run is fence content: the closers start with '\n'
        have hwc : finalizeRun u rc n none = runBase u rc := by
          rw [finalizeRun_eq_fence u rc n none fc fl hfu, if_neg hcond]
        refine scan_from_pending u rc n hInv hr hrc hn ?_
        intro c0 t hcl
        rw [hwc] at hcl
        have hc0 : c0 = '\n' :=
          closersOf_fence_head (runBase u rc) fc fl hcu hfu c0 t hcl
        subst hc0
        refine ⟨?_, by decide⟩
        intro he
        rw [← he] at hrc
        exact absurd hrc (by decide)

theorem pim_idempotent_key (t : String) :
    closersOf (scanBlock (parseIncompleteMarkdown t)) = [] := by
  have hmkd : ∀ l : List Char, (String.mk l).data = l := fun l => rfl
  unfold parseIncompleteMarkdown scanBlock scanChars
  rw [str_data_append, hmkd, List.foldl_append]
  exact closers_scan (t.data.foldl step initScan)
    (inv_foldl t.data initScan inv_initScan)

/-- C1: the Incomplete Token Completer is idempotent: for every string `x` and
every enabled flag, `complete(complete(x)) = complete(x)` — re-running the
completer on its own output changes nothing. -/
theorem completer_idempotent (enabled : Bool) (x : String) :
    applyCompleter enabled (applyCompleter enabled x) =
      applyCompleter enabled x := by
  cases enabled with
  | false => rfl
  | true =>
    show parseIncompleteMarkdown (parseIncompleteMarkdown x) =
      parseIncompleteMarkdown x
    have h1 : parseIncompleteMarkdown (parseIncompleteMarkdown x) =
        parseIncompleteMarkdown x ++
          String.mk (closersOf (scanBlock (parseIncompleteMarkdown x))) := rfl
    rw [h1, pim_idempotent_key x, str_append_nil]

/-! ## Per-construct closer shapes -/

theorem str_append_mk_split (a : String) (l1 l2 : List Char) :
    a ++ String.mk (l1 ++ l2) = a ++ String.mk l1 ++ String.mk l2 := by
  show String.mk (a.data ++ (l1 ++ l2)) = String.mk (a.data ++ l1 ++ l2)
  rw [List.append_assoc]

theorem fence_closer_shape (t : String) (fc : Char) (fl : Nat)
    (hf : (scanBlock t).fence = some (fc, fl)) :
    ∃ r : String, parseIncompleteMarkdown t =
      t ++ String.mk ('\n' :: List.replicate fl fc) ++ r := by
  have hInv := inv_scanBlock t
  have hcd : (scanBlock t).code = none := (hInv.fenceOK fc fl hf).2.2.1
  have hsplit : closersOf (scanBlock t) =
      ('\n' :: List.replicate fl fc) ++
        ((if (scanBlock t).stack.isEmpty then [] else ['\n']) ++
          ((if (scanBlock t).math then ['$', '$'] else []) ++
            (List.replicate (scanBlock t).parDepth ')' ++
              emphClosers (scanBlock t).stack))) := by
    rw [closersOf_none_code _ hcd, hf, fenceClosers_some]
    simp only [List.cons_append, List.append_assoc]
  refine ⟨String.mk ((if (scanBlock t).stack.isEmpty then [] else ['\n']) ++
    ((if (scanBlock t).math then ['$', '$'] else []) ++
      (List.replicate (scanBlock t).parDepth ')' ++
        emphClosers (scanBlock t).stack))), ?_⟩
  show t ++ String.mk (closersOf (scanBlock t)) = _
  rw [hsplit, str_append_mk_split]

theorem math_closer_shape (t : String) (hm : (scanBlock t).math = true) :
    ∃ r : String, parseIncompleteMarkdown t = t ++ "$$" ++ r := by
  have hInv := inv_scanBlock t
  have hcd : (scanBlock t).code = none := by
    rcases hc2 : (scanBlock t).code with _ | ⟨cN, cb⟩
    · rfl
    · have h' := (hInv.codeOK cN cb hc2).2
      rw [hm] at h'
      cases h'
  have hfn : (scanBlock t).fence = none := by
    rcases hf2 : (scanBlock t).fence with _ | ⟨fc, fl⟩
    · rfl
    · have h' := (hInv.fenceOK fc fl hf2).2.2.2.1
      rw [hm] at h'
      cases h'
  have hsplit : closersOf (scanBlock t) =
      ['$', '$'] ++
        (List.replicate (scanBlock t).parDepth ')' ++
          emphClosers (scanBlock t).stack) := by
    rw [closersOf_none_code _ hcd, hfn, fenceClosers_none, List.nil_append,
      if_pos hm]
    simp only [List.cons_append, List.append_assoc]
  refine ⟨String.mk (List.replicate (scanBlock t).parDepth ')' ++
    emphClosers (scanBlock t).stack), ?_⟩
  have h2s : ("$$" : String) = String.mk ['$', '$'] := rfl
  show t ++ String.mk (closersOf (scanBlock t)) = _
  rw [hsplit, str_append_mk_split, h2s]

theorem code_closer_shape (t : String) (cN : Nat)
    (hc : (scanBlock t).code = some (cN, true)) :
    ∃ r : String, parseIncompleteMarkdown t =
      t ++ String.mk (List.replicate cN '`') ++ r := by
  have hsplit : closersOf (scanBlock t) =
      List.replicate cN '`' ++
        (List.replicate (scanBlock t).parDepth ')' ++
          emphClosers (scanBlock t).stack) := by
    rw [closersOf_code_true _ cN hc, List.append_assoc]
  refine ⟨String.mk (List.replicate (scanBlock t).parDepth ')' ++
    emphClosers (scanBlock t).stack), ?_⟩
  show t ++ String.mk (closersOf (scanBlock t)) = _
  rw [hsplit, str_append_mk_split]

theorem code_empty_shape (t : String) (cN : Nat)
    (hc : (scanBlock t).code = some (cN, false)) :
    parseIncompleteMarkdown t = t := by
  show t ++ String.mk (closersOf (scanBlock t)) = t
  rw [closersOf_code_false _ cN hc, str_append_nil]

theorem emphClosers_mem (st : List (Char × Nat)) (c : Char)
    (h : c ∈ emphClosers st) : ∃ e ∈ st, e.1 = c := by
  induction st with
  | nil => exact absurd h (by simp [emphClosers])
  | cons hd tl ih =>
    obtain ⟨c1, m1⟩ := hd
    have h' : c ∈ List.replicate m1 c1 ++ emphClosers tl := h
    rcases List.mem_append.mp h' with h2 | h2
    · exact ⟨(c1, m1), List.mem_cons_self _ _,
        (List.eq_of_mem_replicate h2).symm⟩
    · obtain ⟨e, he, hec⟩ := ih h2
      exact ⟨e, List.mem_cons_of_mem _ he, hec⟩

/-- The characters the completer can append: a newline, a fence character, a
closing paren when parens are open, closing dollars when math is open, or an
open delimiter-stack marker. -/
theorem closersOf_mem (s : ScanState) (hInv : ScanInv s) (c : Char)
    (h : c ∈ closersOf s) :
    c = '\n' ∨ c = '`' ∨ c = '~' ∨
      (c = ')' ∧ 1 ≤ s.parDepth) ∨ (c = '$' ∧ s.math = true) ∨
      ∃ e ∈ s.stack, e.1 = c := by
  rcases hcs : s.code with _ | ⟨cN, cb⟩
  · rw [closersOf_none_code s hcs] at h
    simp only [List.mem_append] at h
    rcases h with ((h1 | h2) | h3) | h4
    · -- fence closers
      rcases hf2 : s.fence with _ | ⟨fc, fl⟩
      · rw [hf2, fenceClosers_none] at h1
        exact absurd h1 (by simp)
      · rw [hf2, fenceClosers_some] at h1
        have hfc := (hInv.fenceOK fc fl hf2).1
        simp only [List.mem_cons, List.mem_append] at h1
        rcases h1 with h1 | h1 | h1
        · exact Or.inl h1
        · have hcc := List.eq_of_mem_replicate h1
          rcases hfc with hx | hx
          · exact Or.inr (Or.inl (hcc.trans hx))
          · exact Or.inr (Or.inr (Or.inl (hcc.trans hx)))
        · revert h1
          split
          · intro h1
            exact absurd h1 (by simp)
          · intro h1
            exact Or.inl (by simpa using h1)
    · -- math closers
      revert h2
      split
      · rename_i hmT
        intro h2
        have hcc : c = '$' := by
          rcases List.mem_cons.mp h2 with h' | h'
          · exact h'
          · simpa using h'
        exact Or.inr (Or.inr (Or.inr (Or.inr (Or.inl ⟨hcc, hmT⟩))))
      · intro h2
        exact absurd h2 (by simp)
    · -- paren closers
      have hmr := List.mem_replicate.mp h3
      exact Or.inr (Or.inr (Or.inr (Or.inl
        ⟨hmr.2, by omega⟩)))
    · exact Or.inr (Or.inr (Or.inr (Or.inr (Or.inr
        (emphClosers_mem s.stack c h4)))))
  · cases cb with
    | false =>
      rw [closersOf_code_false s cN hcs] at h
      exact absurd h (by simp)
    | true =>
      rw [closersOf_code_true s cN hcs] at h
      simp only [List.mem_append] at h
      rcases h with (h1 | h2) | h3
      · exact Or.inr (Or.inl (List.eq_of_mem_replicate h1))
      · have hmr := List.mem_replicate.mp h2
        exact Or.inr (Or.inr (Or.inr (Or.inl ⟨hmr.2, by omega⟩)))
      · exact Or.inr (Or.inr (Or.inr (Or.inr (Or.inr
          (emphClosers_mem s.stack c h3)))))

theorem no_paren_closer (t : String) (hp : (scanBlock t).parDepth = 0) :
    (')' : Char) ∉ closersOf (scanBlock t) := by
  intro h
  rcases closersOf_mem (scanBlock t) (inv_scanBlock t) ')' h with
    h1 | h1 | h1 | ⟨-, h1⟩ | ⟨h1, -⟩ | ⟨e, he, hec⟩
  · exact absurd h1 (by decide)
  · exact absurd h1 (by decide)
  · exact absurd h1 (by decide)
  · omega
  · exact absurd h1 (by decide)
  · have hch : e.1 = '*' ∨ e.1 = '_' ∨ e.1 = '~' :=
      ((inv_scanBlock t).stackOK.1 e he).1
    rw [hec] at hch
    rcases hch with h' | h' | h' <;> exact absurd h' (by decide)

theorem no_dollar_closer (t : String) (hm : (scanBlock t).math = false) :
    ('$' : Char) ∉ closersOf (scanBlock t) := by
  intro h
  rcases closersOf_mem (scanBlock t) (inv_scanBlock t) '$' h with
    h1 | h1 | h1 | ⟨h1, -⟩ | ⟨-, h1⟩ | ⟨e, he, hec⟩
  · exact absurd h1 (by decide)
  · exact absurd h1 (by decide)
  · exact absurd h1 (by decide)
  · exact absurd h1 (by decide)
  · rw [hm] at h1
    cases h1
  · have hch : e.1 = '*' ∨ e.1 = '_' ∨ e.1 = '~' :=
      ((inv_scanBlock t).stackOK.1 e he).1
    rw [hec] at hch
    rcases hch with h' | h' | h' <;> exact absurd h' (by decide)

/-- C5: a block ending inside an unterminated fenced code region gets a
closing fence appended on a fresh line, of the same character and the opener's
(hence at-least-equal) length, and a block ending inside unterminated `$$`
block math gets a closing `$$` appended; concretely for the unterminated
fence and the matrix-style math block of the test corpus. -/
theorem fence_math_completion :
    (∀ (t : String) (fc : Char) (fl : Nat),
      (scanBlock t).fence = some (fc, fl) →
      (fc = '`' ∨ fc = '~') ∧ 1 ≤ fl ∧
      ∃ r : String, parseIncompleteMarkdown t =
        t ++ String.mk ('\n' :: List.replicate fl fc) ++ r) ∧
    (∀ t : String, (scanBlock t).math = true →
      ∃ r : String, parseIncompleteMarkdown t = t ++ "$$" ++ r) ∧
    parseIncompleteMarkdown "```js\ncode" = "```js\ncode\n```" ∧
    parseIncompleteMarkdown "$$\nx" = "$$\nx$$" := by
  refine ⟨?_, fun t hm => math_closer_shape t hm, by decide, by decide⟩
  intro t fc fl hf
  exact ⟨((inv_scanBlock t).fenceOK fc fl hf).1,
    ((inv_scanBlock t).fenceOK fc fl hf).2.1,
    fence_closer_shape t fc fl hf⟩

theorem fence_math_completion_witness :
    (scanBlock "```js\ncode").fence = some ('`', 3) ∧
    ((('`' : Char) = '`' ∨ ('`' : Char) = '~') ∧ 1 ≤ 3 ∧
      ∃ r : String, parseIncompleteMarkdown "```js\ncode" =
        "```js\ncode" ++ String.mk ('\n' :: List.replicate 3 '`') ++ r) ∧
    (scanBlock "$$\nx").math = true ∧
    (∃ r : String, parseIncompleteMarkdown "$$\nx" = "$$\nx" ++ "$$" ++ r) :=
  ⟨by decide, fence_math_completion.1 "```js\ncode" '`' 3 (by decide),
   by decide, fence_math_completion.2.1 "$$\nx" (by decide)⟩

/-- C7: an unterminated inline code span whose opener run of length N is
followed by at least one non-backtick character gets N closing backticks
appended; a backtick opener with no content yet is left unchanged; concretely
`` `abc `` gains its closing backtick and a lone backtick stays as is. -/
theorem code_span_completion :
    (∀ (t : String) (cN : Nat), (scanBlock t).code = some (cN, true) →
      ∃ r : String, parseIncompleteMarkdown t =
        t ++ String.mk (List.replicate cN '`') ++ r) ∧
    (∀ (t : String) (cN : Nat), (scanBlock t).code = some (cN, false) →
      parseIncompleteMarkdown t = t) ∧
    parseIncompleteMarkdown "`abc" = "`abc`" ∧
    parseIncompleteMarkdown "`" = "`" :=
  ⟨fun t cN hc => code_closer_shape t cN hc,
   fun t cN hc => code_empty_shape t cN hc, by decide, by decide⟩

theorem code_span_completion_witness :
    (scanBlock "`abc").code = some (1, true) ∧
    (∃ r : String, parseIncompleteMarkdown "`abc" =
      "`abc" ++ String.mk (List.replicate 1 '`') ++ r) ∧
    (scanBlock "`").code = some (1, false) ∧
    parseIncompleteMarkdown "`" = "`" :=
  ⟨by decide, code_span_completion.1 "`abc" 1 (by decide),
   by decide, code_span_completion.2.1 "`" 1 (by decide)⟩

/-- C8: a dangling `[text` with no following `(` gets no synthesized closer —
`"[click"` is returned unchanged, and more generally no `)` is ever appended
when no paren is open — while inside an unterminated `(` a closing `)` is
appended, accepting the partial URL as-is. -/
theorem link_completion :
    parseIncompleteMarkdown "[click" = "[click" ∧
    parseIncompleteMarkdown "[click](http://x" = "[click](http://x)" ∧
    (∀ t : String, (scanBlock t).parDepth = 0 →
      (')' : Char) ∉ closersOf (scanBlock t)) :=
  ⟨by decide, by decide, fun t hp => no_paren_closer t hp⟩

theorem link_completion_witness :
    (scanBlock "[click").parDepth = 0 ∧
    (')' : Char) ∉ closersOf (scanBlock "[click") :=
  ⟨by decide, link_completion.2.2 "[click" (by decide)⟩

/-- C9: a lone dollar is literal currency — `"$5"` is returned unchanged, and
more generally no `$` is ever appended while no `$$` math region is open —
while a confirmed (double-dollar) math opener with no closer is closed with
the matching `$$`. -/
theorem math_dollar_completion :
    parseIncompleteMarkdown "$5" = "$5" ∧
    (∀ t : String, (scanBlock t).math = false →
      ('$' : Char) ∉ closersOf (scanBlock t)) ∧
    (∀ t : String, (scanBlock t).math = true →
      ∃ r : String, parseIncompleteMarkdown t = t ++ "$$" ++ r) :=
  ⟨by decide, fun t hm => no_dollar_closer t hm,
   fun t hm => math_closer_shape t hm⟩

theorem math_dollar_completion_witness :
    (scanBlock "$5").math = false ∧
    ('$' : Char) ∉ closersOf (scanBlock "$5") ∧
    (scanBlock "$$\na").math = true ∧
    (∃ r : String, parseIncompleteMarkdown "$$\na" = "$$\na" ++ "$$" ++ r) :=
  ⟨by decide, math_dollar_completion.2.1 "$5" (by decide),
   by decide, math_dollar_completion.2.2 "$$\na" (by decide)⟩

theorem segmenter_reconstruction_witness :
    ("ab" : String) ∈ parseMarkdownIntoBlocks "ab" ∧ ("ab" : String) ≠ "" :=
  ⟨by decide, segmenter_reconstruction.2.1 "ab" "ab" (by decide)⟩

theorem engine_total_witness :
    NoMarkdownText "hello world" ∧
    parseIncompleteMarkdown "hello world" = "hello world" ∧
    ("x" : String) ≠ "" ∧ parseMarkdownIntoBlocks "x" ≠ [] :=
  ⟨by unfold NoMarkdownText; decide,
   engine_total.2.1 "hello world" (by unfold NoMarkdownText; decide),
   by decide, engine_total.2.2.2 "x" (by decide)⟩
